import Mathlib

/-!
Verification of the regex-to-DFA engine in `regex_to_DFA.py`.

The Python program is shallowly embedded: dictionaries become association
lists (insertion-ordered, first binding wins on lookup, matching Python
semantics for well-formed dicts), Python sets of integers become
sorted duplicate-free lists produced by `sortDedup`, exceptions become
`Except` / `Option` results, and the two unbounded `while` loops
(subset construction and partition refinement) take an explicit fuel
argument, returning `none` when the fuel runs out; every theorem about a
pipeline run is conditioned on the run returning `some`, which is exactly
the set of runs the Python program performs.
-/

set_option maxHeartbeats 1000000

/-! ### Association lists (Python dictionaries) -/

/-- Lookup in an association list; first binding wins, like a Python dict
(whose keys are unique, so the first binding is the only one). -/
def alookup {κ β : Type} [DecidableEq κ] (k : κ) : List (κ × β) → Option β
  | [] => none
  | (k2, v) :: t => if k2 = k then some v else alookup k t

/-- Update-or-append for an association list: mirrors `d[k] = v` on a Python
dict (existing key keeps its position, new key is appended at the end). -/
def aupdate {κ β : Type} [DecidableEq κ] (k : κ) (v : β) : List (κ × β) → List (κ × β)
  | [] => [(k, v)]
  | (k2, v2) :: t => if k2 = k then (k, v) :: t else (k2, v2) :: aupdate k v t

/-- Keys of an association list. -/
def akeys {κ β : Type} (l : List (κ × β)) : List κ := l.map Prod.fst

/-! ### Sorted duplicate-free lists (Python sets of ints) -/

/-- Insert into a sorted duplicate-free list, skipping an element already
present. -/
def insSorted (x : Nat) : List Nat → List Nat
  | [] => [x]
  | y :: t => if x = y then y :: t else if x < y then x :: y :: t else y :: insSorted x t

/-- Canonical sorted duplicate-free representation of a finite set of
naturals; models a Python `set` of state ids. -/
def sortDedup (l : List Nat) : List Nat := l.foldr insSorted []

/-! ### Regex parser (class RegexParser, lines 5-50) -/

/-- Abstract syntax tree produced by the parser; mirrors the Python tuples
`lit c`, `epsilon`, `concat l r`, `union l r`, `star x`. -/
inductive RNode where
  | epsilon : RNode
  | lit : Char → RNode
  | concat : RNode → RNode → RNode
  | union : RNode → RNode → RNode
  | star : RNode → RNode

deriving DecidableEq, Repr

/-- Parser outcomes that are not a successful parse. `mismatched` models the
only exception the parser raises itself, `ValueError("Mismatched
parentheses")`; `oob` models an out-of-range index (an `IndexError`, proved
unreachable from the top-level entry point); `fuelOut` is an artifact of the
fuel-indexed embedding, likewise proved unreachable. -/
inductive PErr where
  | fuelOut : PErr
  | oob : PErr
  | mismatched : PErr

deriving DecidableEq, Repr

deriving instance DecidableEq for Except

/-- Result of one parsing production: the node plus the updated cursor. -/
abbrev PRes := Except PErr (RNode × Nat)

/-- Tags naming the six productions / loops of the recursive-descent parser;
used to express the mutually recursive Python methods as one fuel-structural
function that the kernel can evaluate. -/
inductive PTag where
  | union : PTag
  | unionL : PTag
  | concat : PTag
  | concatL : PTag
  | rep : PTag
  | starL : PTag
  | atom : PTag

deriving DecidableEq, Repr

/-- The whole recursive-descent parser (lines 10-50), one case per
production: `union` mirrors `parse_union`, `unionL` its alternation loop,
`concat` mirrors `parse_concat`, `concatL` its juxtaposition loop (folding
left-associatively, exactly like the Python fold over `nodes`), `rep`
mirrors `parse_repeat`, `starL` its star loop, and `atom` mirrors
`parse_atom` (raising `mismatched` for a missing closing parenthesis, like
the Python `ValueError`). The `node` argument is the loop accumulator and is
ignored by the non-loop productions. -/
def parseRun (p : List Char) : Nat → PTag → RNode → Nat → PRes
  | 0, _, _, _ => .error .fuelOut
  | fuel + 1, .union, _, pos => do
    let (n, pos1) ← parseRun p fuel .concat .epsilon pos
    parseRun p fuel .unionL n pos1
  | fuel + 1, .unionL, node, pos =>
    if p.get? pos = some '|' then do
      let (right, pos1) ← parseRun p fuel .concat .epsilon (pos + 1)
      parseRun p fuel .unionL (.union node right) pos1
    else .ok (node, pos)
  | fuel + 1, .concat, _, pos =>
    match p.get? pos with
    | none => .ok (.epsilon, pos)
    | some c =>
      if c = ')' ∨ c = '|' then .ok (.epsilon, pos)
      else do
        let (n, pos1) ← parseRun p fuel .rep .epsilon pos
        parseRun p fuel .concatL n pos1
  | fuel + 1, .concatL, node, pos =>
    match p.get? pos with
    | none => .ok (node, pos)
    | some c =>
      if c = ')' ∨ c = '|' then .ok (node, pos)
      else do
        let (n, pos1) ← parseRun p fuel .rep .epsilon pos
        parseRun p fuel .concatL (.concat node n) pos1
  | fuel + 1, .rep, _, pos => do
    let (n, pos1) ← parseRun p fuel .atom .epsilon pos
    parseRun p fuel .starL n pos1
  | fuel + 1, .starL, node, pos =>
    if p.get? pos = some '*' then parseRun p fuel .starL (.star node) (pos + 1)
    else .ok (node, pos)
  | fuel + 1, .atom, _, pos =>
    match p.get? pos with
    | none => .error .oob
    | some c =>
      if c = '(' then do
        let (n, pos1) ← parseRun p fuel .union .epsilon (pos + 1)
        match p.get? pos1 with
        | some c2 => if c2 = ')' then .ok (n, pos1 + 1) else .error .mismatched
        | none => .error .mismatched
      else .ok (.lit c, pos + 1)

/-- Mirrors `RegexParser.parse_union`. -/
def parseUnion (fuel : Nat) (p : List Char) (pos : Nat) : PRes :=
  parseRun p fuel .union .epsilon pos

/-- The while-loop of `parse_union`. -/
def unionLoop (fuel : Nat) (p : List Char) (node : RNode) (pos : Nat) : PRes :=
  parseRun p fuel .unionL node pos

/-- Mirrors `RegexParser.parse_concat`. -/
def parseConcat (fuel : Nat) (p : List Char) (pos : Nat) : PRes :=
  parseRun p fuel .concat .epsilon pos

/-- The while-loop of `parse_concat`. -/
def concatLoop (fuel : Nat) (p : List Char) (node : RNode) (pos : Nat) : PRes :=
  parseRun p fuel .concatL node pos

/-- Mirrors `RegexParser.parse_repeat`. -/
def parseRepeat (fuel : Nat) (p : List Char) (pos : Nat) : PRes :=
  parseRun p fuel .rep .epsilon pos

/-- The while-loop of `parse_repeat`. -/
def starLoop (fuel : Nat) (p : List Char) (node : RNode) (pos : Nat) : PRes :=
  parseRun p fuel .starL node pos

/-- Mirrors `RegexParser.parse_atom`. -/
def parseAtom (fuel : Nat) (p : List Char) (pos : Nat) : PRes :=
  parseRun p fuel .atom .epsilon pos

/-- Mirrors `RegexParser(pattern).parse()`: run `parse_union` from position 0.
The fuel `4 * p.length + 6` is proved sufficient below, so the embedding is
total exactly where the Python parser is. -/
def parseRegex (p : List Char) : Except PErr RNode :=
  (parseUnion (4 * p.length + 6) p 0).map Prod.fst

/-! ### Thompson construction (lines 52-132) -/

/-- NFA transition table: state to (symbol-or-epsilon to target set). `none`
as a symbol is the epsilon label, mirroring Python `None`. -/
abbrev NTrans := List (Nat × List (Option Char × List Nat))

/-- Mirrors `new_state` with the global counter made explicit: returns the
fresh state and the updated counter. -/
def new_state (n : Nat) : Nat × Nat := (n, n + 1)

/-- Mirrors `add_transition`: ensure the nested keys exist and add the target
to the target set if absent. -/
def add_transition (tr : NTrans) (s : Nat) (sym : Option Char) (t : Nat) : NTrans :=
  let row := (alookup s tr).getD []
  let tgts := (alookup sym row).getD []
  let tgts2 := if t ∈ tgts then tgts else tgts ++ [t]
  aupdate s (aupdate sym tgts2 row) tr

/-- Mirrors `combine_transitions`: fold both tables into a fresh one, making
every key of either table a key of the result (possibly with an empty row)
and unioning the target sets. -/
def combine_transitions (t1 t2 : NTrans) : NTrans :=
  (t1 ++ t2).foldl
    (fun acc kv =>
      let acc2 := if (alookup kv.1 acc).isSome then acc else aupdate kv.1 [] acc
      kv.2.foldl
        (fun acc3 symTgts =>
          symTgts.2.foldl (fun a tg => add_transition a kv.1 symTgts.1 tg) acc3)
        acc2)
    []

/-- Mirrors `build_nfa`, threading the Python global `state_id` counter
explicitly: `build_nfa node n = ((start, accept, transitions), n2)`. -/
def build_nfa : RNode → Nat → (Nat × Nat × NTrans) × Nat
  | .lit c, n =>
    let (s, n1) := new_state n
    let (t, n2) := new_state n1
    let tr := add_transition [] s (some c) t
    let tr := if (alookup t tr).isSome then tr else aupdate t [] tr
    ((s, t, tr), n2)
  | .epsilon, n =>
    let (s, n1) := new_state n
    let (t, n2) := new_state n1
    let tr := add_transition [] s none t
    let tr := if (alookup t tr).isSome then tr else aupdate t [] tr
    ((s, t, tr), n2)
  | .concat l r, n =>
    let ((s1, t1, tr1), n1) := build_nfa l n
    let ((s2, t2, tr2), n2) := build_nfa r n1
    let tr1b := add_transition tr1 t1 none s2
    ((s1, t2, combine_transitions tr1b tr2), n2)
  | .union l r, n =>
    let (s, n1) := new_state n
    let (t, n2) := new_state n1
    let ((s1, t1, tr1), n3) := build_nfa l n2
    let ((s2, t2, tr2), n4) := build_nfa r n3
    let tr := add_transition [] s none s1
    let tr := add_transition tr s none s2
    let tr := add_transition tr t1 none t
    let tr := add_transition tr t2 none t
    let tr := combine_transitions tr tr1
    let tr := combine_transitions tr tr2
    let tr := if (alookup t tr).isSome then tr else aupdate t [] tr
    ((s, t, tr), n4)
  | .star x, n =>
    let (s, n1) := new_state n
    let (t, n2) := new_state n1
    let ((s1, t1, tr1), n3) := build_nfa x n2
    let tr := add_transition [] s none s1
    let tr := add_transition tr s none t
    let tr := add_transition tr t1 none s1
    let tr := add_transition tr t1 none t
    let tr := combine_transitions tr tr1
    let tr := if (alookup t tr).isSome then tr else aupdate t [] tr
    ((s, t, tr), n3)

/-! ### Epsilon closure (lines 134-144) -/

/-- Targets reachable from `s` on label `a` (empty when the nested keys are
missing, matching the `if s in trans and symbol in trans[s]` guards). -/
def ntargets (tr : NTrans) (s : Nat) (a : Option Char) : List Nat :=
  ((alookup s tr).bind (fun row => alookup a row)).getD []

/-- All states that occur as the target of some epsilon transition; only used
to size the fuel of the closure worklist. -/
def epsTargetsAll (tr : NTrans) : List Nat :=
  (tr.map (fun kv => (alookup none kv.2).getD [])).flatten

/-- The worklist of `epsilon_closure`: pop a state, push its unseen epsilon
targets, and record them in the closure, which doubles as the visited set. -/
def epsClosureAux (tr : NTrans) : Nat → List Nat → List Nat → List Nat
  | 0, _, cl => cl
  | _ + 1, [], cl => cl
  | fuel + 1, s :: stack, cl =>
    let nxts := ((ntargets tr s none).filter (fun x => !cl.contains x)).dedup
    epsClosureAux tr fuel (nxts ++ stack) (cl ++ nxts)

/-- Mirrors `epsilon_closure`. The fuel is one more than the largest possible
number of loop iterations (each iteration pops one entry, and every state is
pushed at most once), so the worklist always drains; this is proved below. -/
def epsilon_closure (tr : NTrans) (states : List Nat) : List Nat :=
  let start := states.dedup
  epsClosureAux tr (start.length + (epsTargetsAll tr).dedup.length + 1) start start

/-! ### Subset construction (lines 146-187) -/

/-- DFA transition table: state to (symbol to state). -/
abbrev DTrans := List (Nat × List (Char × Nat))

/-- Write one DFA transition cell, mirroring
`dfa_transitions[s][c] = v` (the row is created if missing). -/
def setCell (t : DTrans) (s : Nat) (c : Char) (v : Nat) : DTrans :=
  aupdate s (aupdate c v ((alookup s t).getD [])) t

/-- State of the subset-construction loop: the interning table from NFA-state
sets (canonically sorted) to DFA ids, the DFA transition table, the next
fresh id, and the lazily created dead state. -/
structure SubSt where
  dstates : List (List Nat × Nat)
  dtrans : DTrans
  nextId : Nat
  dead : Option Nat

deriving DecidableEq, Repr

/-- The inner `for symbol in alphabet` loop of `nfa_to_dfa` for one popped
set `cur` with id `curId`: fills the row of `curId`, interning newly seen
closure sets and creating the shared dead state on first need. Returns the
updated state and the newly discovered sets in discovery order. -/
def subSyms (tr : NTrans) (cur : List Nat) (curId : Nat) :
    List Char → SubSt → SubSt × List (List Nat)
  | [], st => (st, [])
  | c :: cs, st =>
    let mv := cur.flatMap (fun s => ntargets tr s (some c))
    let cl := sortDedup (epsilon_closure tr mv)
    if cl.isEmpty then
      match st.dead with
      | some d => subSyms tr cur curId cs { st with dtrans := setCell st.dtrans curId c d }
      | none =>
        let d := st.nextId
        subSyms tr cur curId cs
          { st with
            nextId := st.nextId + 1
            dead := some d
            dtrans := setCell (aupdate d [] st.dtrans) curId c d }
    else
      match alookup cl st.dstates with
      | some tid => subSyms tr cur curId cs { st with dtrans := setCell st.dtrans curId c tid }
      | none =>
        let tid := st.nextId
        let (st2, news) := subSyms tr cur curId cs
          { st with
            dstates := st.dstates ++ [(cl, tid)]
            nextId := st.nextId + 1
            dtrans := setCell st.dtrans curId c tid }
        (st2, cl :: news)

/-- The `while unmarked` loop of `nfa_to_dfa`, fuel-indexed. The unmarked
list is a FIFO queue, as in the Python (`unmarked.pop(0)`). -/
def subLoop (tr : NTrans) (alpha : List Char) : Nat → List (List Nat) → SubSt → Option SubSt
  | _, [], st => some st
  | 0, _ :: _, _ => none
  | fuel + 1, cur :: rest, st =>
    match alookup cur st.dstates with
    | none => none
    | some curId =>
      let st1 := { st with dtrans := aupdate curId [] st.dtrans }
      let (st2, news) := subSyms tr cur curId alpha st1
      subLoop tr alpha fuel (rest ++ news) st2

/-- Mirrors `nfa_to_dfa`: returns `(dfa_transitions, start_state, dfa_states,
dead_state)` when the worklist drains within the fuel. -/
def nfa_to_dfa (nfaStart _nfaAccept : Nat) (tr : NTrans) (alpha : List Char) (fuel : Nat) :
    Option (DTrans × Nat × List (List Nat × Nat) × Option Nat) :=
  let startSet := sortDedup (epsilon_closure tr [nfaStart])
  (subLoop tr alpha fuel [startSet] ⟨[(startSet, 0)], [], 1, none⟩).map
    (fun st => (st.dtrans, 0, st.dstates, st.dead))

/-- Mirrors `get_accept_states`: DFA ids whose underlying NFA-state set
contains the NFA accept state (as a canonical sorted list, modelling the
Python set). -/
def get_accept_states (dstates : List (List Nat × Nat)) (nfaAccept : Nat) : List Nat :=
  sortDedup ((dstates.filter (fun kv => kv.1.contains nfaAccept)).map (fun kv => kv.2))

/-! ### DFA minimization (lines 189-255) -/

/-- Mirrors the state-collection loop of `minimize_dfa` (lines 191-195):
all keys plus all transition targets of keys. Returns `none` when some key
lacks an entry for some alphabet symbol, modelling the `KeyError` that
`dfa_transitions[s][symbol]` raises there. -/
def collectStates (t : DTrans) (alpha : List Char) : Option (List Nat) := do
  let keys := akeys t
  let tgts ← keys.mapM (fun s => alpha.mapM (fun c => (alookup s t).bind (alookup c)))
  some (sortDedup (keys ++ tgts.flatten))

/-- Complete one state's row with self-loops for missing symbols
(lines 200-202). -/
def completeRow (s : Nat) (alpha : List Char) (row : List (Char × Nat)) : List (Char × Nat) :=
  alpha.foldl (fun r c => if (alookup c r).isSome then r else aupdate c s r) row

/-- Mirrors the completion loop of `minimize_dfa` (lines 196-202): every
collected state becomes a key and its row is completed with self-loops. -/
def completeTransitions (t : DTrans) (statesL : List Nat) (alpha : List Char) : DTrans :=
  statesL.foldl (fun acc s => aupdate s (completeRow s alpha ((alookup s acc).getD [])) acc) t

/-- Combined lookup `dfa_transitions[s][c]`. -/
def alookup2 (t : DTrans) (s : Nat) (c : Char) : Option Nat :=
  (alookup s t).bind (fun row => alookup c row)

/-- Transition function read off a (completed) DFA table; on a cell the table
does not define, the value is the self-loop `s`, which agrees with the
completion the code performs before ever reading such a cell. -/
def deltaOf (t : DTrans) (s : Nat) (c : Char) : Nat :=
  (alookup2 t s c).getD s

/-- One pass of the splitting `for Y in P` loop (lines 219-237) for a fixed
preimage `X`: rebuild the partition in order, and update the worklist `W`
exactly as the code does (replace a split worklist block by both halves,
otherwise push only the smaller half). -/
def splitAll (X : List Nat) : List (List Nat) → List (List Nat) →
    List (List Nat) × List (List Nat)
  | [], W => ([], W)
  | Y :: P, W =>
    let inter := Y.filter (fun s => X.contains s)
    let diff := Y.filter (fun s => !X.contains s)
    if inter.isEmpty || diff.isEmpty then
      (Y :: (splitAll X P W).1, (splitAll X P W).2)
    else
      let W1 :=
        if W.contains Y then (W.erase Y) ++ [inter, diff]
        else W ++ [if inter.length ≤ diff.length then inter else diff]
      (inter :: diff :: (splitAll X P W1).1, (splitAll X P W1).2)

/-- The `for symbol in alphabet` loop of the refinement step (lines 217-237):
for each symbol, split every block by the preimage of the popped splitter
`A`. -/
def refineSyms (delta : Nat → Char → Nat) (statesL : List Nat) (A : List Nat) :
    List Char → List (List Nat) → List (List Nat) → List (List Nat) × List (List Nat)
  | [], P, W => (P, W)
  | c :: cs, P, W =>
    let X := statesL.filter (fun s => A.contains (delta s c))
    refineSyms delta statesL A cs (splitAll X P W).1 (splitAll X P W).2

/-- The `while W` refinement loop (lines 215-237), fuel-indexed; `W.pop()`
pops from the back of the Python list. -/
def refineLoop (delta : Nat → Char → Nat) (alpha : List Char) (statesL : List Nat) :
    Nat → List (List Nat) → List (List Nat) → Option (List (List Nat))
  | 0, P, W => if W.isEmpty then some P else none
  | fuel + 1, P, W =>
    match W.getLast? with
    | none => some P
    | some A =>
      refineLoop delta alpha statesL fuel
        (refineSyms delta statesL A alpha P W.dropLast).1
        (refineSyms delta statesL A alpha P W.dropLast).2

/-- Index of the block of `P` containing `s`; models `new_state_map[s]`
(lines 240-243; blocks are disjoint, so at most one block contains `s`),
with `none` modelling the `KeyError` on an uncovered state. -/
def blockIdxOpt : List (List Nat) → Nat → Option Nat
  | [], _ => none
  | Y :: P, s => if s ∈ Y then some 0 else (blockIdxOpt P s).map (· + 1)

/-- Build the row of minimized block `i` from its representative (the first
member, modelling `next(iter(block))`), lines 249-251. -/
def minRow (delta : Nat → Char → Nat) (alpha : List Char) (P : List (List Nat)) (rep : Nat) :
    Option (List (Char × Nat)) :=
  alpha.foldlM (fun row c => (blockIdxOpt P (delta rep c)).map (fun i => aupdate c i row)) []

/-- Build the minimized transition table, one row per block (lines 246-251),
numbering blocks from `i` upward. -/
def buildRows (delta : Nat → Char → Nat) (alpha : List Char) (P : List (List Nat)) :
    Nat → List (List Nat) → Option DTrans
  | _, [] => some []
  | i, Y :: rest => do
    let rep ← Y.head?
    let row ← minRow delta alpha P rep
    let rows ← buildRows delta alpha P (i + 1) rest
    some ((i, row) :: rows)

/-- Initial partition of `minimize_dfa` (lines 204-212): the accepting set
(as the canonical sorted list modelling the Python `set(accept_states)`) and
the non-accepting rest, empty parts omitted; the worklist starts as a copy. -/
def initP (statesL : List Nat) (acceptStates : List Nat) : List (List Nat) :=
  let F := sortDedup acceptStates
  let nonF := statesL.filter (fun s => !F.contains s)
  (if F.isEmpty then [] else [F]) ++ (if nonF.isEmpty then [] else [nonF])

/-- Mirrors `minimize_dfa`: returns `(new_transitions, new_start_state,
new_accept_states)`, or `none` on a `KeyError` or when the refinement loop
does not drain within the fuel. -/
def minimize_dfa (t : DTrans) (startState : Nat) (acceptStates : List Nat) (alpha : List Char)
    (fuel : Nat) : Option (DTrans × Nat × List Nat) := do
  let statesL ← collectStates t alpha
  let delta := deltaOf (completeTransitions t statesL alpha)
  let P ← refineLoop delta alpha statesL fuel (initP statesL acceptStates)
    (initP statesL acceptStates)
  let mtr ← buildRows delta alpha P 0 P
  let mstart ← blockIdxOpt P startState
  let maccRaw ← (sortDedup acceptStates).mapM (fun s => blockIdxOpt P s)
  some (mtr, mstart, sortDedup maccRaw)

/-! ### Pipeline (lines 257-296) -/

/-- Result dictionary of `regex_to_dfa`. -/
structure DFAResult where
  start_state : Nat
  accept_states : List Nat
  dead_states : List Nat
  transitions : DTrans
  regex : List Char

deriving DecidableEq, Repr

/-- Completion of the dead state's row with self-loops, mirroring
lines 277-280 of `regex_to_dfa`. -/
def deadCompleted (dtr : DTrans) (deadState : Option Nat) (alpha : List Char) : DTrans :=
  match deadState with
  | none => dtr
  | some d => alpha.foldl (fun t c => setCell t d c d) dtr

/-- Mirrors `regex_to_dfa`, with the Python global `state_id` counter made an
explicit input/output (the function resets it to 0 after parsing, line 272,
so the incoming value is irrelevant to the result). `none` models a raised
exception or the fuel running out on one of the two loops. -/
def regex_to_dfa (regex : List Char) (alpha : List Char) (fuel : Nat) (counter : Nat) :
    Option DFAResult × Nat :=
  match parseRegex regex with
  | .error _ => (none, counter)
  | .ok tree =>
    let ((nfaStart, nfaAccept, nfaTrans), counter2) := build_nfa tree 0
    match nfa_to_dfa nfaStart nfaAccept nfaTrans alpha fuel with
    | none => (none, counter2)
    | some (dtr, startState, dstates, deadState) =>
      let accepts := get_accept_states dstates nfaAccept
      let dtr2 := deadCompleted dtr deadState alpha
      match minimize_dfa dtr2 startState accepts alpha fuel with
      | none => (none, counter2)
      | some (mtr, mstart, macc) =>
        let deads := mtr.filterMap
          (fun kv => if !macc.contains kv.1 && kv.2.all (fun e => e.2 = kv.1)
                     then some kv.1 else none)
        (some ⟨mstart, macc, deads, mtr, regex⟩, counter2)

/-! ### Walking a DFA (the membership notion of the specification) -/

/-- Walk a transition function along a word. -/
def walkD (delta : Nat → Char → Nat) (s : Nat) : List Char → Nat
  | [] => s
  | c :: w => walkD delta (delta s c) w

/-- Walk a DFA table along a word (cells the table does not define self-loop,
which never occurs on the tables the pipeline produces: they are total). -/
def dfaWalk (t : DTrans) (s : Nat) (w : List Char) : Nat :=
  walkD (deltaOf t) s w

/-! ### Correctness of the epsilon-closure worklist -/

/-- A set of states closed under epsilon transitions of `tr`. -/
def epsClosedSet (tr : NTrans) (T : Set Nat) : Prop :=
  ∀ s ∈ T, ∀ x ∈ ntargets tr s none, x ∈ T

/-! ### The parser never runs out of fuel and never indexes out of range -/

/-- Well-behavedness of one parser result: no fuel artifact, no out-of-range
index, and on success the cursor moved forward (strictly, when `strict`) and
stayed within the pattern. -/
def PSpec (p : List Char) (lo : Nat) (strict : Bool) (r : PRes) : Prop :=
  r ≠ .error .fuelOut ∧ r ≠ .error .oob ∧
  ∀ n pos2, r = .ok (n, pos2) → (strict = true → lo < pos2) ∧ lo ≤ pos2 ∧ pos2 ≤ p.length

/-! ### Acceptance by a returned DFA -/

/-- Membership notion of the specification on a pipeline result: walk the
transition table from the start state and test acceptance. -/
def dfaAccepts (d : DFAResult) (w : List Char) : Prop :=
  dfaWalk d.transitions d.start_state w ∈ d.accept_states

/-- A state appears in a DFA table if it is a key or a transition target. -/
def appearsIn (t : DTrans) (s : Nat) : Prop :=
  s ∈ akeys t ∨ ∃ kv ∈ t, ∃ e ∈ kv.2, e.2 = s

/-! ### Partition-refinement invariants (claims C1 and C2) -/

/-- Blocks of a partition are pairwise disjoint. -/
def DisjB (P : List (List Nat)) : Prop :=
  List.Pairwise (fun Y Z => ∀ s, s ∈ Y → s ∉ Z) P

/-- Partition invariant: blocks are nonempty, pairwise disjoint, and cover
exactly the collected state set. -/
def PartInv (statesL : List Nat) (P : List (List Nat)) : Prop :=
  (∀ Y ∈ P, Y ≠ []) ∧ DisjB P ∧ ∀ s, (∃ Y ∈ P, s ∈ Y) ↔ s ∈ statesL

/-- Acceptance uniformity: every block lies inside or outside `F`. -/
def AccInv (F : List Nat) (P : List (List Nat)) : Prop :=
  ∀ Y ∈ P, (∀ s ∈ Y, s ∈ F) ∨ (∀ s ∈ Y, s ∉ F)

/-- Two states lie in a common block. -/
def SameB (P : List (List Nat)) (x y : Nat) : Prop :=
  ∃ Y ∈ P, x ∈ Y ∧ y ∈ Y

/-- The set `A` separates `x` from `y`. -/
def SepB (A : List Nat) (x y : Nat) : Prop :=
  ¬(x ∈ A ↔ y ∈ A)

/-- `A` is a union of blocks of `P`. -/
def UBlk (A : List Nat) (P : List (List Nat)) : Prop :=
  ∀ Y ∈ P, (∀ s ∈ Y, s ∈ A) ∨ (∀ s ∈ Y, s ∉ A)

/-- Every worklist entry is a union of current blocks. -/
def WInv (P W : List (List Nat)) : Prop :=
  ∀ A ∈ W, UBlk A P

/-- The Hopcroft completeness invariant, parameterised by the splitter `A`
currently being processed and the suffix `rest` of alphabet symbols it has
not yet been applied to: same-block states have same-block successors, or
some worklist entry separates the successors, or the pending splitter with a
pending symbol does. -/
def Kmid (delta : Nat → Char → Nat) (alpha : List Char) (statesL : List Nat)
    (P W : List (List Nat)) (A : List Nat) (rest : List Char) : Prop :=
  ∀ p ∈ statesL, ∀ q ∈ statesL, SameB P p q → ∀ c ∈ alpha,
    SameB P (delta p c) (delta q c) ∨
    (∃ A2 ∈ W, SepB A2 (delta p c) (delta q c)) ∨
    (c ∈ rest ∧ SepB A (delta p c) (delta q c))

/-- The completeness invariant between refinement steps. -/
def KInv (delta : Nat → Char → Nat) (alpha : List Char) (statesL : List Nat)
    (P W : List (List Nat)) : Prop :=
  ∀ p ∈ statesL, ∀ q ∈ statesL, SameB P p q → ∀ c ∈ alpha,
    SameB P (delta p c) (delta q c) ∨ ∃ A2 ∈ W, SepB A2 (delta p c) (delta q c)

/-- Stability: same-block states have same-block successors on every
alphabet symbol. -/
def Stab (delta : Nat → Char → Nat) (alpha : List Char) (statesL : List Nat)
    (P : List (List Nat)) : Prop :=
  ∀ p ∈ statesL, ∀ q ∈ statesL, SameB P p q → ∀ c ∈ alpha,
    SameB P (delta p c) (delta q c)

/-- `p` and `q` are distinguished by some word over the alphabet. -/
def DistW (delta : Nat → Char → Nat) (F : List Nat) (alpha : List Char) (p q : Nat) : Prop :=
  ∃ w : List Char, (∀ c ∈ w, c ∈ alpha) ∧
    ¬(walkD delta p w ∈ F ↔ walkD delta q w ∈ F)

/-- Soundness invariant: states in different blocks are distinguishable. -/
def SInv (delta : Nat → Char → Nat) (F : List Nat) (alpha : List Char) (statesL : List Nat)
    (P : List (List Nat)) : Prop :=
  ∀ p ∈ statesL, ∀ q ∈ statesL, ¬SameB P p q → DistW delta F alpha p q

theorem alookup_aupdate_self {κ β : Type} [DecidableEq κ] (k : κ) (v : β) (l : List (κ × β)) :
    alookup k (aupdate k v l) = some v := by
  induction l with
  | nil => simp [aupdate, alookup]
  | cons h t ih =>
    by_cases hk : h.1 = k
    · simp [aupdate, hk, alookup]
    · simp [aupdate, hk, alookup, ih]

theorem alookup_aupdate_ne {κ β : Type} [DecidableEq κ] (k k2 : κ) (v : β) (l : List (κ × β))
    (h : k2 ≠ k) : alookup k (aupdate k2 v l) = alookup k l := by
  induction l with
  | nil => simp [aupdate, alookup, h]
  | cons hd t ih =>
    by_cases hk : hd.1 = k2
    · have hk2 : ¬ hd.1 = k := fun he => h (hk ▸ he ▸ rfl)
      simp [aupdate, hk, alookup, h, hk2]
    · by_cases hk2 : hd.1 = k
      · simp [aupdate, hk, alookup, hk2, Ne.symm h]
      · simp [aupdate, hk, alookup, hk2, ih]

theorem alookup_isSome_of_mem {κ β : Type} [DecidableEq κ] {k : κ} {l : List (κ × β)}
    (h : k ∈ akeys l) : (alookup k l).isSome := by
  induction l with
  | nil => simp [akeys] at h
  | cons hd t ih =>
    simp [akeys] at h
    rcases h with h | h
    · simp [alookup, h]
    · by_cases hk : hd.1 = k
      · simp [alookup, hk]
      · simpa [alookup, hk] using ih (by simpa [akeys] using h)

theorem mem_akeys_of_alookup {κ β : Type} [DecidableEq κ] {k : κ} {v : β} {l : List (κ × β)}
    (h : alookup k l = some v) : k ∈ akeys l := by
  induction l with
  | nil => simp [alookup] at h
  | cons hd t ih =>
    by_cases hk : hd.1 = k
    · simp [akeys, hk]
    · simp [alookup, hk] at h
      simpa [akeys] using Or.inr (by simpa [akeys] using ih h)

theorem mem_of_alookup {κ β : Type} [DecidableEq κ] {k : κ} {v : β} {l : List (κ × β)}
    (h : alookup k l = some v) : (k, v) ∈ l := by
  induction l with
  | nil => simp [alookup] at h
  | cons hd t ih =>
    by_cases hk : hd.1 = k
    · obtain ⟨k1, v1⟩ := hd
      simp only at hk
      subst hk
      simp [alookup] at h
      subst h
      exact List.mem_cons_self _ _
    · simp [alookup, hk] at h
      exact List.mem_cons_of_mem _ (ih h)

theorem akeys_aupdate {κ β : Type} [DecidableEq κ] (k k2 : κ) (v : β) (l : List (κ × β)) :
    k2 ∈ akeys (aupdate k v l) ↔ k2 = k ∨ k2 ∈ akeys l := by
  induction l with
  | nil => simp [aupdate, akeys, eq_comm]
  | cons hd t ih =>
    by_cases hk : hd.1 = k
    · subst hk
      simp [aupdate, akeys]
    · simp [aupdate, hk, akeys] at ih ⊢
      tauto

theorem mem_insSorted (x a : Nat) (l : List Nat) : a ∈ insSorted x l ↔ a = x ∨ a ∈ l := by
  induction l with
  | nil => simp [insSorted]
  | cons y t ih =>
    by_cases h1 : x = y
    · subst h1
      simp [insSorted]
    · by_cases h2 : x < y
      · simp [insSorted, h1, h2]
      · simp [insSorted, h1, h2, ih]
        tauto

theorem mem_sortDedup (a : Nat) (l : List Nat) : a ∈ sortDedup l ↔ a ∈ l := by
  induction l with
  | nil => simp [sortDedup]
  | cons y t ih =>
    simp only [sortDedup, List.foldr] at ih ⊢
    rw [mem_insSorted]
    simp [ih]

theorem sorted_insSorted (x : Nat) (l : List Nat) (h : l.Sorted (· < ·)) :
    (insSorted x l).Sorted (· < ·) := by
  induction l with
  | nil => simp [insSorted]
  | cons y t ih =>
    rcases List.sorted_cons.1 h with ⟨hy, ht⟩
    by_cases h1 : x = y
    · simpa [insSorted, h1] using h
    · by_cases h2 : x < y
      · simp only [insSorted, if_neg h1, if_pos h2]
        refine List.sorted_cons.2 ⟨?_, h⟩
        intro b hb
        rcases List.mem_cons.1 hb with h3 | h3
        · exact h3 ▸ h2
        · exact lt_trans h2 (hy b h3)
      · have h3 : y < x := by omega
        simp only [insSorted, if_neg h1, if_neg h2]
        refine List.sorted_cons.2 ⟨?_, ih ht⟩
        intro b hb
        rcases (mem_insSorted x b t).1 hb with h4 | h4
        · exact h4 ▸ h3
        · exact hy b h4

theorem sorted_sortDedup (l : List Nat) : (sortDedup l).Sorted (· < ·) := by
  induction l with
  | nil => simp [sortDedup]
  | cons y t ih => exact sorted_insSorted y _ ih

theorem nodup_sortDedup (l : List Nat) : (sortDedup l).Nodup :=
  (sorted_sortDedup l).nodup

theorem ntargets_mem_epsTargetsAll {tr : NTrans} {s x : Nat}
    (h : x ∈ ntargets tr s none) : x ∈ epsTargetsAll tr := by
  unfold ntargets at h
  cases hrow : alookup s tr with
  | none => simp [hrow] at h
  | some row =>
    simp only [hrow, Option.bind_some] at h
    have hmem : (s, row) ∈ tr := mem_of_alookup hrow
    have : (alookup none row).getD [] ∈ tr.map (fun kv => (alookup (none : Option Char) kv.2).getD []) :=
      List.mem_map.2 ⟨(s, row), hmem, rfl⟩
    cases htg : alookup (none : Option Char) row with
    | none => simp [htg] at h
    | some tg =>
      refine List.mem_flatten.2 ⟨tg, by simpa [htg] using this, ?_⟩
      simpa [htg] using h

theorem epsClosureAux_mono (tr : NTrans) :
    ∀ fuel stack cl, ∀ s ∈ cl, s ∈ epsClosureAux tr fuel stack cl := by
  intro fuel
  induction fuel with
  | zero => intro stack cl s hs; simpa [epsClosureAux] using hs
  | succ fuel ih =>
    intro stack cl s hs
    cases stack with
    | nil => simpa [epsClosureAux] using hs
    | cons t rest =>
      simp only [epsClosureAux]
      exact ih _ _ s (List.mem_append_left _ hs)

theorem epsClosureAux_subset_closed (tr : NTrans) (T : Set Nat) (hT : epsClosedSet tr T) :
    ∀ fuel stack cl, (∀ s ∈ stack, s ∈ cl) → (∀ s ∈ cl, s ∈ T) →
      ∀ s ∈ epsClosureAux tr fuel stack cl, s ∈ T := by
  intro fuel
  induction fuel with
  | zero => intro stack cl _ hcl s hs; exact hcl s (by simpa [epsClosureAux] using hs)
  | succ fuel ih =>
    intro stack cl hstack hcl s hs
    cases stack with
    | nil => exact hcl s (by simpa [epsClosureAux] using hs)
    | cons t rest =>
      simp only [epsClosureAux] at hs
      refine ih _ _ ?_ ?_ s hs
      · intro u hu
        rcases List.mem_append.1 hu with hu | hu
        · exact List.mem_append_right _ hu
        · exact List.mem_append_left _ (hstack u (List.mem_cons_of_mem _ hu))
      · intro u hu
        rcases List.mem_append.1 hu with hu | hu
        · exact hcl u hu
        · have hu2 := List.mem_dedup.1 hu
          have hu3 := List.of_mem_filter hu2
          have hu4 := List.mem_of_mem_filter hu2
          exact hT t (hcl t (hstack t (List.mem_cons_self t rest))) u hu4

theorem epsClosureAux_closed (tr : NTrans) :
    ∀ fuel stack cl,
      stack.length + ((epsTargetsAll tr).toFinset \ cl.toFinset).card < fuel →
      (∀ s ∈ stack, s ∈ cl) →
      (∀ s ∈ cl, s ∉ stack → ∀ x ∈ ntargets tr s none, x ∈ cl) →
      ∀ s ∈ epsClosureAux tr fuel stack cl, ∀ x ∈ ntargets tr s none,
        x ∈ epsClosureAux tr fuel stack cl := by
  intro fuel
  induction fuel with
  | zero => omega
  | succ fuel ih =>
    intro stack cl hmu hstack hinv
    cases stack with
    | nil =>
      intro s hs x hx
      simp only [epsClosureAux] at hs ⊢
      exact hinv s hs (by simp) x hx
    | cons t rest =>
      simp only [epsClosureAux]
      set nxts := ((ntargets tr t none).filter (fun x => !cl.contains x)).dedup with hnxts
      have hnodup : nxts.Nodup := List.nodup_dedup _
      have hsubT : ∀ x ∈ nxts, x ∈ (epsTargetsAll tr).toFinset \ cl.toFinset := by
        intro x hx
        have hx2 := List.mem_dedup.1 hx
        have hxt := List.mem_of_mem_filter hx2
        have hxf := List.of_mem_filter hx2
        simp only [Finset.mem_sdiff, List.mem_toFinset]
        refine ⟨ntargets_mem_epsTargetsAll hxt, ?_⟩
        simpa using hxf
      have hcard : ((epsTargetsAll tr).toFinset \ (cl ++ nxts).toFinset).card + nxts.length
          = ((epsTargetsAll tr).toFinset \ cl.toFinset).card := by
        have h1 : (cl ++ nxts).toFinset = cl.toFinset ∪ nxts.toFinset := by
          ext a; simp
        have h2 : (epsTargetsAll tr).toFinset \ (cl.toFinset ∪ nxts.toFinset)
            = ((epsTargetsAll tr).toFinset \ cl.toFinset) \ nxts.toFinset := by
          ext a; simp [Finset.mem_sdiff]; tauto
        have h3 : nxts.toFinset ⊆ (epsTargetsAll tr).toFinset \ cl.toFinset := by
          intro a ha
          exact hsubT a (List.mem_toFinset.1 ha)
        have h4 := Finset.card_sdiff h3
        have h5 : nxts.toFinset.card = nxts.length := by
          rw [List.toFinset_card_of_nodup hnodup]
        rw [h1, h2, h4, h5]
        have := Finset.card_le_card h3
        omega
      refine ih (nxts ++ rest) (cl ++ nxts) ?_ ?_ ?_
      · simp only [List.length_append]
        simp only [List.length_cons] at hmu
        omega
      · intro u hu
        rcases List.mem_append.1 hu with hu | hu
        · exact List.mem_append_right _ hu
        · exact List.mem_append_left _ (hstack u (List.mem_cons_of_mem _ hu))
      · intro u hu hnot x hx
        rcases List.mem_append.1 hu with hu | hu
        · by_cases hut : u = t
          · subst hut
            by_cases hxcl : x ∈ cl
            · exact List.mem_append_left _ hxcl
            · refine List.mem_append_right _ ?_
              refine List.mem_dedup.2 (List.mem_filter.2 ⟨hx, ?_⟩)
              simpa using hxcl
          · have hurest : u ∉ rest := fun h =>
              hnot (List.mem_append_right _ h)
            have := hinv u hu (by
              intro hmem
              rcases List.mem_cons.1 hmem with h | h
              · exact hut h
              · exact hurest h) x hx
            exact List.mem_append_left _ this
        · exact absurd (List.mem_append_left _ hu) hnot

/-- Claim C6: `epsilon_closure`, a total function, returns a superset of its
input that is closed under epsilon transitions and contained in every
epsilon-closed superset of the input: the smallest epsilon-closed superset.
Totality of the Lean function (the fuel is proved sufficient, so the
worklist always drains) renders the never-fails / always-terminates part. -/
theorem claim_C6 (tr : NTrans) (states : List Nat) :
    (∀ s ∈ states, s ∈ epsilon_closure tr states) ∧
    (∀ s ∈ epsilon_closure tr states, ∀ x ∈ ntargets tr s none,
        x ∈ epsilon_closure tr states) ∧
    (∀ T : Set Nat, (∀ s ∈ states, s ∈ T) → epsClosedSet tr T →
        ∀ s ∈ epsilon_closure tr states, s ∈ T) := by
  unfold epsilon_closure
  refine ⟨?_, ?_, ?_⟩
  · intro s hs
    exact epsClosureAux_mono tr _ _ _ s (List.mem_dedup.2 hs)
  · refine epsClosureAux_closed tr _ _ _ ?_ (fun s hs => hs) (fun s hs hnot x hx => absurd hs hnot)
    have : ((epsTargetsAll tr).toFinset \ states.dedup.toFinset).card
        ≤ (epsTargetsAll tr).toFinset.card := Finset.card_le_card (Finset.sdiff_subset)
    have h2 : (epsTargetsAll tr).toFinset.card ≤ (epsTargetsAll tr).dedup.length := by
      rw [← List.toFinset_card_of_nodup (List.nodup_dedup (epsTargetsAll tr))]
      exact Finset.card_le_card (by intro a ha; simpa using List.mem_toFinset.1 ha)
    omega
  · intro T hTs hTc
    exact epsClosureAux_subset_closed tr T hTc _ _ _ (fun s hs => hs)
      (fun s hs => hTs s (List.mem_dedup.1 hs))

theorem except_bind_ok {ε α β : Type} (a : α) (f : α → Except ε β) :
    (Except.ok a : Except ε α) >>= f = f a := rfl

theorem except_bind_error {ε α β : Type} (e : ε) (f : α → Except ε β) :
    (Except.error e : Except ε α) >>= f = .error e := rfl

theorem pspec_ok {p : List Char} {lo : Nat} {s : Bool} {n : RNode} {pos2 : Nat}
    (h1 : s = true → lo < pos2) (h2 : lo ≤ pos2) (h3 : pos2 ≤ p.length) :
    PSpec p lo s (.ok (n, pos2)) := by
  refine ⟨by simp, by simp, ?_⟩
  intro n2 q hq
  obtain ⟨rfl, rfl⟩ : n = n2 ∧ pos2 = q := by
    constructor <;> [skip; skip] <;> cases hq <;> rfl
  exact ⟨h1, h2, h3⟩

theorem pspec_mismatched {p : List Char} {lo : Nat} {s : Bool} :
    PSpec p lo s (.error .mismatched) := by
  refine ⟨by simp, by simp, ?_⟩
  intro n q hq
  cases hq

theorem pspec_le {p : List Char} {lo lo2 : Nat} {s : Bool} {r : PRes}
    (h : lo2 ≤ lo) (hs : PSpec p lo s r) : PSpec p lo2 s r := by
  refine ⟨hs.1, hs.2.1, ?_⟩
  intro n q hq
  obtain ⟨a, b, c⟩ := hs.2.2 n q hq
  exact ⟨fun ht => lt_of_le_of_lt h (a ht), le_trans h b, c⟩

theorem pspec_weaken {p : List Char} {lo : Nat} {r : PRes}
    (hs : PSpec p lo true r) : PSpec p lo false r := by
  refine ⟨hs.1, hs.2.1, ?_⟩
  intro n q hq
  obtain ⟨a, b, c⟩ := hs.2.2 n q hq
  exact ⟨by simp, b, c⟩

theorem pspec_bind {p : List Char} {lo : Nat} {s1 s2 : Bool} {e : PRes}
    {f : RNode × Nat → PRes}
    (he : PSpec p lo s1 e)
    (hf : ∀ n m, e = .ok (n, m) → PSpec p m s2 (f (n, m))) :
    PSpec p lo (s1 || s2) (e >>= f) := by
  cases e with
  | error err =>
    rw [except_bind_error]
    exact ⟨he.1, he.2.1, fun n q hq => by cases hq⟩
  | ok val =>
    obtain ⟨n, m⟩ := val
    rw [except_bind_ok]
    obtain ⟨a1, a2, a3⟩ := he.2.2 n m rfl
    have hfs := hf n m rfl
    refine ⟨hfs.1, hfs.2.1, ?_⟩
    intro n2 q hq
    obtain ⟨b1, b2, b3⟩ := hfs.2.2 n2 q hq
    refine ⟨?_, le_trans a2 b2, b3⟩
    intro hor
    rcases Bool.or_eq_true_iff.1 hor with h | h
    · exact lt_of_lt_of_le (a1 h) b2
    · exact lt_of_le_of_lt a2 (b1 h)

theorem get?_some_lt {α : Type} {l : List α} {n : Nat} {a : α} (h : l.get? n = some a) :
    n < l.length := by
  by_contra hn
  rw [List.get?_eq_none.2 (by omega)] at h
  cases h

/-- Fuel sufficiency for all six parser productions at once: with fuel at
least linear in the remaining input, no production reports `fuelOut` or
`oob`, and the cursor always advances within bounds. -/
theorem parserFuel : ∀ fuel : Nat,
    (∀ p pos, pos < p.length → 4 * (p.length - pos) + 3 ≤ fuel →
      PSpec p pos true (parseAtom fuel p pos)) ∧
    (∀ p pos, pos < p.length → 4 * (p.length - pos) + 4 ≤ fuel →
      PSpec p pos true (parseRepeat fuel p pos)) ∧
    (∀ p node pos, pos ≤ p.length → p.length - pos + 1 ≤ fuel →
      PSpec p pos false (starLoop fuel p node pos)) ∧
    (∀ p pos, pos ≤ p.length → 4 * (p.length - pos) + 5 ≤ fuel →
      PSpec p pos false (parseConcat fuel p pos)) ∧
    (∀ p node pos, pos ≤ p.length → 4 * (p.length - pos) + 5 ≤ fuel →
      PSpec p pos false (concatLoop fuel p node pos)) ∧
    (∀ p pos, pos ≤ p.length → 4 * (p.length - pos) + 6 ≤ fuel →
      PSpec p pos false (parseUnion fuel p pos)) ∧
    (∀ p node pos, pos ≤ p.length → 4 * (p.length - pos) + 5 ≤ fuel →
      PSpec p pos false (unionLoop fuel p node pos)) := by
  intro fuel
  induction fuel with
  | zero =>
    refine ⟨?_, ?_, ?_, ?_, ?_, ?_, ?_⟩ <;> intros <;> omega
  | succ f ih =>
    obtain ⟨ihAtom, ihRepeat, ihStar, ihConcat, ihConcatL, ihUnion, ihUnionL⟩ := ih
    refine ⟨?_, ?_, ?_, ?_, ?_, ?_, ?_⟩
    · -- parseAtom
      intro p pos hlt hfu
      cases hc : p.get? pos with
      | none => exact absurd (List.get?_eq_none.1 hc) (by omega)
      | some c =>
        simp only [parseAtom, parseRun, hc]
        by_cases hpar : c = '('
        · rw [if_pos hpar]
          have hu : PSpec p (pos + 1) false (parseUnion f p (pos + 1)) :=
            ihUnion p (pos + 1) (by omega) (by omega)
          refine pspec_le (Nat.le_succ pos) ?_
          show PSpec p (pos + 1) (false || true) _
          refine pspec_bind hu ?_
          intro n m hm
          obtain ⟨_, hb2, hb3⟩ := hu.2.2 n m hm
          show PSpec p m true
            (match p.get? m with
            | some c2 => if c2 = ')' then Except.ok (n, m + 1) else Except.error PErr.mismatched
            | none => Except.error PErr.mismatched)
          cases hc2 : p.get? m with
          | none => exact pspec_mismatched
          | some c2 =>
            show PSpec p m true
              (if c2 = ')' then Except.ok (n, m + 1) else Except.error PErr.mismatched)
            by_cases hc2r : c2 = ')'
            · rw [if_pos hc2r]
              exact pspec_ok (fun _ => Nat.lt_succ_of_le (le_refl m)) (Nat.le_succ m)
                (by have := get?_some_lt hc2; omega)
            · rw [if_neg hc2r]
              exact pspec_mismatched
        · rw [if_neg hpar]
          exact pspec_ok (fun _ => Nat.lt_succ_self pos) (Nat.le_succ pos) (by omega)
    · -- parseRepeat
      intro p pos hlt hfu
      simp only [parseRepeat, parseRun]
      have ha : PSpec p pos true (parseAtom f p pos) := ihAtom p pos hlt (by omega)
      show PSpec p pos (true || false) _
      refine pspec_bind ha ?_
      intro n m hm
      obtain ⟨a1, a2, a3⟩ := ha.2.2 n m hm
      exact ihStar p n m a3 (by omega)
    · -- starLoop
      intro p node pos hle hfu
      simp only [starLoop, parseRun]
      by_cases hstar : p.get? pos = some '*'
      · rw [if_pos hstar]
        have hlt : pos < p.length := get?_some_lt hstar
        exact pspec_le (Nat.le_succ pos) (ihStar p (.star node) (pos + 1) (by omega) (by omega))
      · rw [if_neg hstar]
        exact pspec_ok (by simp) (le_refl pos) hle
    · -- parseConcat
      intro p pos hle hfu
      cases hc : p.get? pos with
      | none =>
        simp only [parseConcat, parseRun, hc]
        exact pspec_ok (by simp) (le_refl pos) hle
      | some c =>
        simp only [parseConcat, parseRun, hc]
        by_cases hstop : c = ')' ∨ c = '|'
        · rw [if_pos hstop]
          exact pspec_ok (by simp) (le_refl pos) hle
        · rw [if_neg hstop]
          have hlt : pos < p.length := get?_some_lt hc
          refine pspec_weaken ?_
          show PSpec p pos (true || false) _
          refine pspec_bind (ihRepeat p pos hlt (by omega)) ?_
          intro n m hm
          obtain ⟨a1, a2, a3⟩ := (ihRepeat p pos hlt (by omega)).2.2 n m hm
          have ha1 := a1 rfl
          exact ihConcatL p n m a3 (by omega)
    · -- concatLoop
      intro p node pos hle hfu
      cases hc : p.get? pos with
      | none =>
        simp only [concatLoop, parseRun, hc]
        exact pspec_ok (by simp) (le_refl pos) hle
      | some c =>
        simp only [concatLoop, parseRun, hc]
        by_cases hstop : c = ')' ∨ c = '|'
        · rw [if_pos hstop]
          exact pspec_ok (by simp) (le_refl pos) hle
        · rw [if_neg hstop]
          have hlt : pos < p.length := get?_some_lt hc
          refine pspec_weaken ?_
          show PSpec p pos (true || false) _
          refine pspec_bind (ihRepeat p pos hlt (by omega)) ?_
          intro n m hm
          obtain ⟨a1, a2, a3⟩ := (ihRepeat p pos hlt (by omega)).2.2 n m hm
          have ha1 := a1 rfl
          exact ihConcatL p (node.concat n) m a3 (by omega)
    · -- parseUnion
      intro p pos hle hfu
      simp only [parseUnion, parseRun]
      show PSpec p pos (false || false) _
      refine pspec_bind (ihConcat p pos hle (by omega)) ?_
      intro n m hm
      obtain ⟨a1, a2, a3⟩ := (ihConcat p pos hle (by omega)).2.2 n m hm
      exact ihUnionL p n m a3 (by omega)
    · -- unionLoop
      intro p node pos hle hfu
      simp only [unionLoop, parseRun]
      by_cases hbar : p.get? pos = some '|'
      · rw [if_pos hbar]
        have hlt : pos < p.length := get?_some_lt hbar
        refine pspec_le (Nat.le_succ pos) ?_
        show PSpec p (pos + 1) (false || false) _
        refine pspec_bind (ihConcat p (pos + 1) (by omega) (by omega)) ?_
        intro n m hm
        obtain ⟨a1, a2, a3⟩ := (ihConcat p (pos + 1) (by omega) (by omega)).2.2 n m hm
        exact ihUnionL p (node.union n) m a3 (by omega)
      · rw [if_neg hbar]
        exact pspec_ok (by simp) (le_refl pos) hle

theorem parseRegex_no_artifacts (p : List Char) :
    parseRegex p ≠ .error .fuelOut ∧ parseRegex p ≠ .error .oob := by
  have h := (parserFuel (4 * p.length + 6)).2.2.2.2.2.1 p 0 (by omega) (by omega)
  unfold parseRegex
  cases he : parseUnion (4 * p.length + 6) p 0 with
  | error err =>
    rw [he] at h
    refine ⟨?_, ?_⟩ <;> simp only [Except.map] <;> intro hcon <;> cases hcon
    · exact h.1 rfl
    · exact h.2.1 rfl
  | ok val => simp [Except.map]

/-- The `mismatched` error can only arise from the parenthesis branch of
`parse_atom`, so a pattern with no opening parenthesis never raises it. -/
theorem noParen_no_mismatched : ∀ fuel p, '(' ∉ p →
    (∀ pos, parseAtom fuel p pos ≠ .error .mismatched) ∧
    (∀ pos, parseRepeat fuel p pos ≠ .error .mismatched) ∧
    (∀ node pos, starLoop fuel p node pos ≠ .error .mismatched) ∧
    (∀ pos, parseConcat fuel p pos ≠ .error .mismatched) ∧
    (∀ node pos, concatLoop fuel p node pos ≠ .error .mismatched) ∧
    (∀ pos, parseUnion fuel p pos ≠ .error .mismatched) ∧
    (∀ node pos, unionLoop fuel p node pos ≠ .error .mismatched) := by
  intro fuel
  induction fuel with
  | zero =>
    intro p hp
    refine ⟨?_, ?_, ?_, ?_, ?_, ?_, ?_⟩ <;> intros <;>
      simp [parseAtom, parseRepeat, starLoop, parseConcat, concatLoop, parseUnion, unionLoop, parseRun]
  | succ f ih =>
    intro p hp
    obtain ⟨ihAtom, ihRepeat, ihStar, ihConcat, ihConcatL, ihUnion, ihUnionL⟩ := ih p hp
    have atomOk : ∀ pos, parseAtom (f + 1) p pos ≠ .error .mismatched := by
      intro pos
      cases hc : p.get? pos with
      | none =>
        simp only [parseAtom, parseRun, hc]
        simp
      | some c =>
        have hcmem : c ∈ p := List.get?_mem hc
        have hcpar : ¬ c = '(' := fun h => hp (h ▸ hcmem)
        simp only [parseAtom, parseRun, hc]
        rw [if_neg hcpar]
        simp
    have repeatOk : ∀ pos, parseRepeat (f + 1) p pos ≠ .error .mismatched := by
      intro pos
      simp only [parseRepeat, parseRun]
      cases ha : parseRun p f .atom .epsilon pos with
      | error err =>
        rw [except_bind_error]
        intro hcon
        cases hcon
        exact ihAtom pos ha
      | ok val =>
        obtain ⟨n, m⟩ := val
        rw [except_bind_ok]
        exact ihStar n m
    have starOk : ∀ node pos, starLoop (f + 1) p node pos ≠ .error .mismatched := by
      intro node pos
      simp only [starLoop, parseRun]
      by_cases hstar : p.get? pos = some '*'
      · rw [if_pos hstar]; exact ihStar _ _
      · rw [if_neg hstar]; simp
    have concatLOk : ∀ node pos, concatLoop (f + 1) p node pos ≠ .error .mismatched := by
      intro node pos
      cases hc : p.get? pos with
      | none =>
        simp only [concatLoop, parseRun, hc]
        simp
      | some c =>
        simp only [concatLoop, parseRun, hc]
        by_cases hstop : c = ')' ∨ c = '|'
        · rw [if_pos hstop]; simp
        · rw [if_neg hstop]
          cases hr : parseRun p f .rep .epsilon pos with
          | error err =>
            rw [except_bind_error]
            intro hcon; cases hcon
            exact ihRepeat pos hr
          | ok val =>
            obtain ⟨n, m⟩ := val
            rw [except_bind_ok]
            exact ihConcatL _ _
    have concatOk : ∀ pos, parseConcat (f + 1) p pos ≠ .error .mismatched := by
      intro pos
      cases hc : p.get? pos with
      | none =>
        simp only [parseConcat, parseRun, hc]
        simp
      | some c =>
        simp only [parseConcat, parseRun, hc]
        by_cases hstop : c = ')' ∨ c = '|'
        · rw [if_pos hstop]; simp
        · rw [if_neg hstop]
          cases hr : parseRun p f .rep .epsilon pos with
          | error err =>
            rw [except_bind_error]
            intro hcon; cases hcon
            exact ihRepeat pos hr
          | ok val =>
            obtain ⟨n, m⟩ := val
            rw [except_bind_ok]
            exact ihConcatL _ _
    have unionLOk : ∀ node pos, unionLoop (f + 1) p node pos ≠ .error .mismatched := by
      intro node pos
      simp only [unionLoop, parseRun]
      by_cases hbar : p.get? pos = some '|'
      · rw [if_pos hbar]
        cases hcn : parseRun p f .concat .epsilon (pos + 1) with
        | error err =>
          rw [except_bind_error]
          intro hcon; cases hcon
          exact ihConcat _ hcn
        | ok val =>
          obtain ⟨n, m⟩ := val
          rw [except_bind_ok]
          exact ihUnionL _ _
      · rw [if_neg hbar]; simp
    have unionOk : ∀ pos, parseUnion (f + 1) p pos ≠ .error .mismatched := by
      intro pos
      simp only [parseUnion, parseRun]
      cases hcn : parseRun p f .concat .epsilon pos with
      | error err =>
        rw [except_bind_error]
        intro hcon; cases hcon
        exact ihConcat _ hcn
      | ok val =>
        obtain ⟨n, m⟩ := val
        rw [except_bind_ok]
        exact ihUnionL _ _
    exact ⟨atomOk, repeatOk, starOk, concatOk, concatLOk, unionOk, unionLOk⟩

/-! ### Claims C4, C7, C8, C10 -/

/-- Claim C4 (corrected): parsing `"(a"` raises the mismatched-parentheses
error, but parsing `"a)"` does NOT raise: the parser returns the AST of `a`
and silently leaves the trailing `)` unconsumed, because `parse` performs no
trailing-input check. -/
theorem claim_C4 :
    parseRegex ['(', 'a'] = .error .mismatched ∧
    parseRegex ['a', ')'] = .ok (.lit 'a') := by
  constructor <;> decide

/-- Counterexample to claim C4 as stated: on the concrete input `"a)"` the
parser returns an AST instead of raising a syntax error. -/
theorem claim_C4_counterexample :
    parseRegex ['a', ')'] = .ok (.lit 'a') := by decide

/-- Claim C10: the parser either returns an AST or fails with the single
mismatched-parentheses error; for a pattern with no parentheses it always
returns an AST; and any character other than `(` in atom position (including
`*` when no atom precedes it) is consumed as a literal. -/
theorem claim_C10 (p : List Char) :
    ((∃ n, parseRegex p = .ok n) ∨ parseRegex p = .error .mismatched) ∧
    ('(' ∉ p ∧ ')' ∉ p → ∃ n, parseRegex p = .ok n) ∧
    (∀ fuel pos c, p.get? pos = some c → c ≠ '(' →
      parseAtom (fuel + 1) p pos = .ok (.lit c, pos + 1)) := by
  have hart := parseRegex_no_artifacts p
  refine ⟨?_, ?_, ?_⟩
  · cases hres : parseRegex p with
    | ok n => exact Or.inl ⟨n, rfl⟩
    | error e =>
      cases e with
      | fuelOut => exact absurd hres hart.1
      | oob => exact absurd hres hart.2
      | mismatched => exact Or.inr rfl
  · rintro ⟨hnl, _⟩
    have hnm := (noParen_no_mismatched (4 * p.length + 6) p hnl).2.2.2.2.2.1 0
    cases hres : parseRegex p with
    | ok n => exact ⟨n, rfl⟩
    | error e =>
      cases e with
      | fuelOut => exact absurd hres hart.1
      | oob => exact absurd hres hart.2
      | mismatched =>
        exfalso
        unfold parseRegex at hres
        cases he : parseUnion (4 * p.length + 6) p 0 with
        | error err =>
          rw [he] at hres
          simp only [Except.map] at hres
          cases hres
          exact hnm he
        | ok val =>
          rw [he] at hres
          simp [Except.map] at hres
  · intro fuel pos c hc hpar
    simp only [parseAtom, parseRun, hc]
    rw [if_neg hpar]

theorem claim_C10_witness :
    ∃ n, parseRegex ['*', 'b'] = .ok n :=
  (claim_C10 ['*', 'b']).2.1 ⟨by decide, by decide⟩

/-- Claim C7: the pipeline result does not depend on the incoming value of
the global `state_id` counter (it is reset to 0 after parsing, line 272), so
two consecutive calls with the same regex and alphabet return structurally
identical results. -/
theorem claim_C7 (regex alpha : List Char) (fuel c1 c2 : Nat) :
    (regex_to_dfa regex alpha fuel c1).1 = (regex_to_dfa regex alpha fuel c2).1 ∧
    (regex_to_dfa regex alpha fuel (regex_to_dfa regex alpha fuel c1).2).1
      = (regex_to_dfa regex alpha fuel c1).1 := by
  unfold regex_to_dfa
  cases parseRegex regex <;> simp

/-- Claim C8: on regex `a*` with alphabet `a` the pipeline returns the
one-state DFA whose single state is both start and accept and self-loops on
`a`; consequently it accepts every string of `a`s, including the empty one. -/
theorem claim_C8 (res : DFAResult) (h : (regex_to_dfa ['a', '*'] ['a'] 100 0).1 = some res) :
    res = ⟨0, [0], [], [(0, [('a', 0)])], ['a', '*']⟩ ∧
    ∀ w : List Char, (∀ c ∈ w, c = 'a') → dfaAccepts res w := by
  have hres : res = ⟨0, [0], [], [(0, [('a', 0)])], ['a', '*']⟩ := by
    have : (regex_to_dfa ['a', '*'] ['a'] 100 0).1
        = some ⟨0, [0], [], [(0, [('a', 0)])], ['a', '*']⟩ := by decide
    rw [this] at h
    exact (Option.some_inj.1 h).symm
  subst hres
  refine ⟨rfl, ?_⟩
  have hwalk : ∀ w : List Char, (∀ c ∈ w, c = 'a') →
      dfaWalk [(0, [('a', 0)])] 0 w = 0 := by
    intro w
    induction w with
    | nil => intro _; rfl
    | cons c w2 ih =>
      intro hw
      have hc := hw c (List.mem_cons_self c w2)
      subst hc
      have h0 : deltaOf [(0, [('a', 0)])] 0 'a' = 0 := rfl
      show walkD (deltaOf [(0, [('a', 0)])]) (deltaOf [(0, [('a', 0)])] 0 'a') w2 = 0
      rw [h0]
      exact ih (fun c2 h2 => hw c2 (List.mem_cons_of_mem _ h2))
  intro w hw
  show dfaWalk [(0, [('a', 0)])] 0 w ∈ ([0] : List Nat)
  rw [hwalk w hw]
  simp

theorem claim_C8_witness :
    (regex_to_dfa ['a', '*'] ['a'] 100 0).1
      = some ⟨0, [0], [], [(0, [('a', 0)])], ['a', '*']⟩ ∧
    dfaAccepts ⟨0, [0], [], [(0, [('a', 0)])], ['a', '*']⟩ ['a', 'a'] :=
  ⟨by decide,
   (claim_C8 ⟨0, [0], [], [(0, [('a', 0)])], ['a', '*']⟩ (by decide)).2 ['a', 'a'] (by decide)⟩

theorem claim_C6_witness :
    (∀ s ∈ [0], s ∈ epsilon_closure [(0, [(none, [1])]), (1, [])] [0]) ∧
    (∀ s ∈ epsilon_closure [(0, [(none, [1])]), (1, [])] [0],
      s ∈ ({0, 1, 2} : Set Nat)) :=
  ⟨(claim_C6 [(0, [(none, [1])]), (1, [])] [0]).1,
   (claim_C6 [(0, [(none, [1])]), (1, [])] [0]).2.2 {0, 1, 2}
    (by intro s hs; simp at hs; simp [hs])
    (by
      intro s hs x hx
      simp only [Set.mem_insert_iff, Set.mem_singleton_iff] at hs
      rcases hs with rfl | rfl | rfl <;> simp_all [ntargets, alookup])⟩

/-! ### The completion step of minimize_dfa (claim C9) -/

theorem completeRow_lookup (s : Nat) (c : Char) : ∀ (al : List Char) (row : List (Char × Nat)),
    alookup c (completeRow s al row) =
      match alookup c row with
      | some v => some v
      | none => if c ∈ al then some s else none := by
  intro al
  induction al with
  | nil =>
    intro row
    simp only [completeRow, List.foldl]
    cases alookup c row <;> simp
  | cons a rest ih =>
    intro row
    simp only [completeRow, List.foldl] at ih ⊢
    by_cases hca : c = a
    · subst hca
      cases hrow : alookup c row with
      | some v =>
        have hred : (if (some v).isSome = true then row else aupdate c s row) = row := by simp
        rw [hred, ih row, hrow]
      | none =>
        have hred : (if (none : Option Nat).isSome = true then row else aupdate c s row)
            = aupdate c s row := by simp
        rw [hred, ih (aupdate c s row), alookup_aupdate_self]
        simp
    · have hswap : alookup c (if (alookup a row).isSome then row else aupdate a s row)
          = alookup c row := by
        by_cases ha : (alookup a row).isSome
        · rw [if_pos ha]
        · rw [if_neg ha, alookup_aupdate_ne c a s row (fun he => hca he.symm)]
      cases hrow : alookup c row with
      | some v =>
        rw [ih, hswap, hrow]
      | none =>
        rw [ih, hswap, hrow]
        simp [hca]

theorem completeTransitions_lookup (alpha : List Char) :
    ∀ (sl : List Nat) (acc : DTrans), sl.Nodup → ∀ s : Nat,
      alookup s (completeTransitions acc sl alpha) =
        if s ∈ sl then some (completeRow s alpha ((alookup s acc).getD [])) else alookup s acc := by
  intro sl
  induction sl with
  | nil =>
    intro acc _ s
    simp [completeTransitions]
  | cons x rest ih =>
    intro acc hnd s
    have hx : x ∉ rest := (List.nodup_cons.1 hnd).1
    have hrest : rest.Nodup := (List.nodup_cons.1 hnd).2
    have hstep : completeTransitions acc (x :: rest) alpha
        = completeTransitions (aupdate x (completeRow x alpha ((alookup x acc).getD [])) acc)
            rest alpha := by
      simp [completeTransitions]
    rw [hstep, ih _ hrest s]
    by_cases hsx : s = x
    · subst hsx
      rw [if_neg hx, alookup_aupdate_self]
      simp
    · rw [alookup_aupdate_ne s x _ acc (fun he => hsx he.symm)]
      by_cases hsr : s ∈ rest
      · rw [if_pos hsr, if_pos (List.mem_cons_of_mem _ hsr)]
      · rw [if_neg hsr, if_neg (by
          intro hmem
          rcases List.mem_cons.1 hmem with h | h
          · exact hsx h
          · exact hsr h)]

theorem collectStates_inv {t : DTrans} {alpha : List Char} {statesL : List Nat}
    (h : collectStates t alpha = some statesL) :
    statesL.Nodup ∧ (∀ s ∈ akeys t, s ∈ statesL) ∧
    ∃ tg, (akeys t).mapM (fun s => alpha.mapM (fun c => (alookup s t).bind (alookup c))) = some tg ∧
      statesL = sortDedup (akeys t ++ tg.flatten) := by
  have h2 : Option.bind
      ((akeys t).mapM (fun s => alpha.mapM (fun c => (alookup s t).bind (alookup c))))
      (fun tgts => some (sortDedup (akeys t ++ tgts.flatten))) = some statesL := h
  cases hm : (akeys t).mapM (fun s => alpha.mapM (fun c => (alookup s t).bind (alookup c))) with
  | none => rw [hm] at h2; simp at h2
  | some tg =>
    rw [hm] at h2
    replace h2 : some (sortDedup (akeys t ++ tg.flatten)) = some statesL := h2
    have h3 := Option.some_inj.1 h2
    subst h3
    refine ⟨nodup_sortDedup _, ?_, tg, rfl, rfl⟩
    intro s hs
    exact (mem_sortDedup _ _).2 (List.mem_append_left _ hs)

/-- Claim C9 (corrected, positive part): when the state-collection loop
succeeds (every key state has a complete row over the alphabet), the
completion performed inside `minimize_dfa` preserves every existing entry,
inserts a self-loop for every collected state at every alphabet symbol the
state lacks (in particular it adds target-only states as fresh keys with
full self-loop rows), and makes no other change. When the collection loop
fails instead (a key state misses a symbol), `minimize_dfa` raises
(returns `none`) without completing anything, which is the corrected part. -/
theorem completed_lookup2_mem (t : DTrans) (alpha : List Char) (statesL : List Nat)
    (hnd : statesL.Nodup) (s : Nat) (c : Char) (hs : s ∈ statesL) :
    alookup2 (completeTransitions t statesL alpha) s c =
      match alookup2 t s c with
      | some v => some v
      | none => if c ∈ alpha then some s else none := by
  unfold alookup2
  rw [completeTransitions_lookup alpha statesL t hnd s, if_pos hs]
  show alookup c (completeRow s alpha ((alookup s t).getD [])) = _
  rw [completeRow_lookup]
  cases hrow : alookup s t with
  | none => rfl
  | some row => rfl

theorem completed_lookup2_notmem (t : DTrans) (alpha : List Char) (statesL : List Nat)
    (hnd : statesL.Nodup) (s : Nat) (c : Char) (hs : s ∉ statesL) :
    alookup2 (completeTransitions t statesL alpha) s c = alookup2 t s c := by
  unfold alookup2
  rw [completeTransitions_lookup alpha statesL t hnd s, if_neg hs]

/-- Claim C9 (corrected, positive part): when the state-collection loop
succeeds (every key state has a complete row over the alphabet), the
completion performed inside `minimize_dfa` preserves every existing entry,
inserts a self-loop for every collected state at every alphabet symbol the
state lacks (in particular it adds target-only states as fresh keys with
full self-loop rows), and makes no other change. When the collection loop
fails instead (a key state misses a symbol), `minimize_dfa` raises
(returns `none`) without completing anything, which is the corrected part. -/
theorem claim_C9 (t : DTrans) (alpha : List Char) (statesL : List Nat)
    (h : collectStates t alpha = some statesL) :
    (∀ s c v, alookup2 t s c = some v →
        alookup2 (completeTransitions t statesL alpha) s c = some v) ∧
    (∀ s ∈ statesL, ∀ c ∈ alpha, alookup2 t s c = none →
        alookup2 (completeTransitions t statesL alpha) s c = some s) ∧
    (∀ s c, alookup2 (completeTransitions t statesL alpha) s c ≠ alookup2 t s c →
        alookup2 t s c = none ∧ s ∈ statesL ∧ c ∈ alpha ∧
        alookup2 (completeTransitions t statesL alpha) s c = some s) := by
  obtain ⟨hnd, hkeys, -⟩ := collectStates_inv h
  refine ⟨?_, ?_, ?_⟩
  · intro s c v hv
    have hsk : s ∈ statesL := by
      cases hrow : alookup s t with
      | none => rw [alookup2, hrow] at hv; cases hv
      | some row => exact hkeys s (mem_akeys_of_alookup hrow)
    rw [completed_lookup2_mem t alpha statesL hnd s c hsk, hv]
  · intro s hs c hc hnone
    rw [completed_lookup2_mem t alpha statesL hnd s c hs, hnone, if_pos hc]
  · intro s c hne
    by_cases hs : s ∈ statesL
    · rw [completed_lookup2_mem t alpha statesL hnd s c hs] at hne ⊢
      cases hv : alookup2 t s c with
      | some v => rw [hv] at hne; exact absurd rfl hne
      | none =>
        rw [hv] at hne
        by_cases hc : c ∈ alpha
        · exact ⟨rfl, hs, hc, if_pos hc⟩
        · exact absurd (if_neg hc) hne
    · rw [completed_lookup2_notmem t alpha statesL hnd s c hs] at hne
      exact absurd rfl hne

/-- Counterexample to claim C9 as stated: with the table mapping state 0 to
an empty row and alphabet `a`, state 0 lacks an entry for `a`, yet
`minimize_dfa` does not insert a self-loop into the mapping: it raises a
`KeyError` (embedded as `none`) in the state-collection loop, before the
completion loop runs. -/
theorem claim_C9_counterexample :
    alookup2 [(0, ([] : List (Char × Nat)))] 0 'a' = none ∧
    minimize_dfa [(0, [])] 0 [] ['a'] 5 = none := by
  constructor <;> decide

theorem claim_C9_witness :
    alookup2 (completeTransitions [(0, [('a', 1)])] [0, 1] ['a']) 1 'a' = some 1 :=
  (claim_C9 [(0, [('a', 1)])] ['a'] [0, 1] (by decide)).2.1 1 (by decide) 'a' (by decide)
    (by decide)

/-! ### Inversion of the pipeline results -/

theorem obind_inv {α β : Type} {x : Option α} {f : α → Option β} {b : β}
    (h : x.bind f = some b) : ∃ a, x = some a ∧ f a = some b := by
  cases x with
  | none => cases h
  | some a => exact ⟨a, rfl, h⟩

theorem minimize_dfa_inv {t : DTrans} {start : Nat} {accepts : List Nat} {alpha : List Char}
    {fuel : Nat} {mtr : DTrans} {mstart : Nat} {macc : List Nat}
    (h : minimize_dfa t start accepts alpha fuel = some (mtr, mstart, macc)) :
    ∃ statesL P maccRaw,
      collectStates t alpha = some statesL ∧
      refineLoop (deltaOf (completeTransitions t statesL alpha)) alpha statesL fuel
        (initP statesL accepts) (initP statesL accepts) = some P ∧
      buildRows (deltaOf (completeTransitions t statesL alpha)) alpha P 0 P = some mtr ∧
      blockIdxOpt P start = some mstart ∧
      (sortDedup accepts).mapM (fun s => blockIdxOpt P s) = some maccRaw ∧
      macc = sortDedup maccRaw := by
  have h2 : Option.bind (collectStates t alpha) (fun statesL =>
      Option.bind (refineLoop (deltaOf (completeTransitions t statesL alpha)) alpha statesL fuel
          (initP statesL accepts) (initP statesL accepts)) (fun P =>
        Option.bind (buildRows (deltaOf (completeTransitions t statesL alpha)) alpha P 0 P)
          (fun mt =>
          Option.bind (blockIdxOpt P start) (fun ms =>
            Option.bind ((sortDedup accepts).mapM (fun s => blockIdxOpt P s)) (fun mr =>
              some (mt, ms, sortDedup mr)))))) = some (mtr, mstart, macc) := h
  obtain ⟨statesL, hc, h3⟩ := obind_inv h2
  obtain ⟨P, hr, h4⟩ := obind_inv h3
  obtain ⟨mt, hb, h5⟩ := obind_inv h4
  obtain ⟨ms, hs, h6⟩ := obind_inv h5
  obtain ⟨mr, hm, h7⟩ := obind_inv h6
  obtain ⟨rfl, rfl, rfl⟩ : mt = mtr ∧ ms = mstart ∧ sortDedup mr = macc := by
    have := Option.some_inj.1 h7
    exact ⟨congrArg Prod.fst this, congrArg (fun q => q.2.1) this,
      congrArg (fun q => q.2.2) this⟩
  exact ⟨statesL, P, mr, hc, hr, hb, hs, hm, rfl⟩

theorem regex_to_dfa_inv {regex alpha : List Char} {fuel c0 : Nat} {res : DFAResult}
    (h : (regex_to_dfa regex alpha fuel c0).1 = some res) :
    ∃ tree nfaStart nfaAccept nfaTrans dtr startState dstates deadState mtr mstart macc,
      parseRegex regex = .ok tree ∧
      (build_nfa tree 0).1 = (nfaStart, nfaAccept, nfaTrans) ∧
      nfa_to_dfa nfaStart nfaAccept nfaTrans alpha fuel
        = some (dtr, startState, dstates, deadState) ∧
      minimize_dfa (deadCompleted dtr deadState alpha) startState
          (get_accept_states dstates nfaAccept) alpha fuel
        = some (mtr, mstart, macc) ∧
      res.start_state = mstart ∧ res.accept_states = macc ∧ res.transitions = mtr ∧
      res.regex = regex ∧
      res.dead_states = mtr.filterMap (fun kv =>
        if !macc.contains kv.1 && kv.2.all (fun e => e.2 = kv.1) then some kv.1 else none) := by
  unfold regex_to_dfa at h
  cases hp : parseRegex regex with
  | error e => rw [hp] at h; cases h
  | ok tree =>
    simp only [hp] at h
    rcases hbn : build_nfa tree 0 with ⟨⟨nfaStart, nfaAccept, nfaTrans⟩, c2⟩
    simp only [hbn] at h
    cases hnd : nfa_to_dfa nfaStart nfaAccept nfaTrans alpha fuel with
    | none => simp only [hnd] at h; cases h
    | some out =>
      obtain ⟨dtr, startState, dstates, deadState⟩ := out
      simp only [hnd] at h
      cases hmin : minimize_dfa (deadCompleted dtr deadState alpha) startState
          (get_accept_states dstates nfaAccept) alpha fuel with
      | none => simp only [hmin] at h; cases h
      | some mout =>
        obtain ⟨mtr, mstart, macc⟩ := mout
        simp only [hmin] at h
        have hres := Option.some_inj.1 h
        refine ⟨tree, nfaStart, nfaAccept, nfaTrans, dtr, startState, dstates, deadState,
          mtr, mstart, macc, rfl, by rw [hbn], hnd, hmin, ?_, ?_, ?_, ?_, ?_⟩ <;>
          rw [← hres]

/-! ### Structure of the minimized transition table -/

theorem contains_iff {α : Type} [BEq α] [LawfulBEq α] {l : List α} {a : α} :
    l.contains a = true ↔ a ∈ l := by
  simp [List.contains]

theorem blockIdxOpt_lt {P : List (List Nat)} {s i : Nat} (h : blockIdxOpt P s = some i) :
    i < P.length := by
  induction P generalizing i with
  | nil => cases h
  | cons Y rest ih =>
    by_cases hs : s ∈ Y
    · simp only [blockIdxOpt, if_pos hs, Option.some_inj] at h
      rw [← h]
      simp
    · simp only [blockIdxOpt, if_neg hs] at h
      cases hb : blockIdxOpt rest s with
      | none => rw [hb] at h; cases h
      | some j =>
        rw [hb] at h
        simp at h
        have := ih hb
        simp only [List.length_cons]
        omega

theorem blockIdxOpt_get {P : List (List Nat)} {s i : Nat} (h : blockIdxOpt P s = some i) :
    ∃ Y, P.get? i = some Y ∧ s ∈ Y := by
  induction P generalizing i with
  | nil => cases h
  | cons Y rest ih =>
    by_cases hs : s ∈ Y
    · simp only [blockIdxOpt, if_pos hs, Option.some_inj] at h
      exact ⟨Y, by rw [← h]; rfl, hs⟩
    · simp only [blockIdxOpt, if_neg hs] at h
      cases hb : blockIdxOpt rest s with
      | none => rw [hb] at h; cases h
      | some j =>
        rw [hb] at h
        simp at h
        obtain ⟨Z, hz, hsz⟩ := ih hb
        exact ⟨Z, by rw [← h]; simpa using hz, hsz⟩

theorem blockIdxOpt_some_of_mem {P : List (List Nat)} {s : Nat} {Y : List Nat}
    (hY : Y ∈ P) (hs : s ∈ Y) : ∃ i, blockIdxOpt P s = some i := by
  induction P with
  | nil => cases hY
  | cons Z rest ih =>
    by_cases hz : s ∈ Z
    · exact ⟨0, by simp [blockIdxOpt, hz]⟩
    · rcases List.mem_cons.1 hY with rfl | hY2
      · exact absurd hs hz
      · obtain ⟨i, hi⟩ := ih hY2
        exact ⟨i + 1, by simp [blockIdxOpt, hz, hi]⟩

theorem mem_aupdate {κ β : Type} [DecidableEq κ] {e : κ × β} {k : κ} {v : β}
    {l : List (κ × β)} (h : e ∈ aupdate k v l) : e = (k, v) ∨ e ∈ l := by
  induction l with
  | nil => simpa [aupdate] using h
  | cons hd t ih =>
    by_cases hk : hd.1 = k
    · rw [aupdate, if_pos hk] at h
      rcases List.mem_cons.1 h with h1 | h1
      · exact Or.inl h1
      · exact Or.inr (List.mem_cons_of_mem _ h1)
    · rw [aupdate, if_neg hk] at h
      rcases List.mem_cons.1 h with h1 | h1
      · exact Or.inr (h1 ▸ List.mem_cons_self _ _)
      · rcases ih h1 with h2 | h2
        · exact Or.inl h2
        · exact Or.inr (List.mem_cons_of_mem _ h2)

theorem nodup_akeys_aupdate {κ β : Type} [DecidableEq κ] (k : κ) (v : β) (l : List (κ × β))
    (h : (akeys l).Nodup) : (akeys (aupdate k v l)).Nodup := by
  induction l with
  | nil => simp [aupdate, akeys]
  | cons hd t ih =>
    simp only [akeys, List.map_cons, List.nodup_cons] at h
    by_cases hk : hd.1 = k
    · rw [aupdate, if_pos hk]
      simp only [akeys, List.map_cons, List.nodup_cons]
      exact ⟨by rw [← hk]; exact h.1, h.2⟩
    · rw [aupdate, if_neg hk]
      simp only [akeys, List.map_cons, List.nodup_cons]
      refine ⟨?_, ih h.2⟩
      intro hmem
      have : hd.1 = k ∨ hd.1 ∈ akeys t := (akeys_aupdate k hd.1 v t).1 hmem
      rcases this with h1 | h1
      · exact hk h1
      · exact h.1 h1

theorem minRow_inv {P : List (List Nat)} {delta : Nat → Char → Nat} {rep : Nat} :
    ∀ (al : List Char) (acc row : List (Char × Nat)),
      al.foldlM (fun r c => (blockIdxOpt P (delta rep c)).map (fun i => aupdate c i r)) acc
        = some row →
      (∀ c ∈ al, ∃ k, blockIdxOpt P (delta rep c) = some k ∧ alookup c row = some k) ∧
      (∀ c, c ∉ al → alookup c row = alookup c acc) ∧
      ((akeys acc).Nodup → (akeys row).Nodup) ∧
      (∀ e ∈ row, e ∈ acc ∨ (e.1 ∈ al ∧ blockIdxOpt P (delta rep e.1) = some e.2)) := by
  intro al
  induction al with
  | nil =>
    intro acc row h
    replace h : some acc = some row := h
    obtain rfl := Option.some_inj.1 h
    exact ⟨fun c hc => absurd hc (List.not_mem_nil c), fun c _ => rfl, fun hn => hn,
      fun e he => Or.inl he⟩
  | cons c0 rest ih =>
    intro acc row h
    replace h : Option.bind ((blockIdxOpt P (delta rep c0)).map (fun i => aupdate c0 i acc))
        (fun acc1 => rest.foldlM
          (fun r c => (blockIdxOpt P (delta rep c)).map (fun i => aupdate c i r)) acc1)
        = some row := h
    obtain ⟨acc1, hmap, hrest⟩ := obind_inv h
    obtain ⟨k0, hk0, hacc1⟩ := Option.map_eq_some'.1 hmap
    subst hacc1
    obtain ⟨ih1, ih2, ih3, ih4⟩ := ih (aupdate c0 k0 acc) row hrest
    refine ⟨?_, ?_, ?_, ?_⟩
    · intro c hc
      by_cases hcr : c ∈ rest
      · exact ih1 c hcr
      · rcases List.mem_cons.1 hc with rfl | hcr2
        · refine ⟨k0, hk0, ?_⟩
          rw [ih2 c hcr, alookup_aupdate_self]
        · exact absurd hcr2 hcr
    · intro c hc
      have hc0 : c ≠ c0 := fun he => hc (he ▸ List.mem_cons_self _ _)
      have hcr : c ∉ rest := fun he => hc (List.mem_cons_of_mem _ he)
      rw [ih2 c hcr, alookup_aupdate_ne c c0 k0 acc (fun he => hc0 he.symm)]
    · intro hnd
      exact ih3 (nodup_akeys_aupdate c0 k0 acc hnd)
    · intro e he
      rcases ih4 e he with h1 | h1
      · rcases mem_aupdate h1 with h2 | h2
        · subst h2
          exact Or.inr ⟨List.mem_cons_self _ _, hk0⟩
        · exact Or.inl h2
      · exact Or.inr ⟨List.mem_cons_of_mem _ h1.1, h1.2⟩

theorem buildRows_inv {delta : Nat → Char → Nat} {alpha : List Char} {P : List (List Nat)} :
    ∀ (rest : List (List Nat)) (i : Nat) (mtr : DTrans),
      buildRows delta alpha P i rest = some mtr →
      akeys mtr = List.range' i rest.length ∧
      (∀ kv ∈ mtr, ∃ Y rep, rest.get? (kv.1 - i) = some Y ∧ Y.head? = some rep ∧
        minRow delta alpha P rep = some kv.2) ∧
      (∀ j Y, rest.get? j = some Y → ∃ rep row, Y.head? = some rep ∧
        minRow delta alpha P rep = some row ∧ (i + j, row) ∈ mtr) := by
  intro rest
  induction rest with
  | nil =>
    intro i mtr h
    replace h : some ([] : DTrans) = some mtr := h
    obtain rfl := Option.some_inj.1 h
    exact ⟨rfl, fun kv hkv => absurd hkv (List.not_mem_nil kv),
      fun j Y hj => by cases j <;> cases hj⟩
  | cons Y rest ih =>
    intro i mtr h
    replace h : Option.bind Y.head? (fun rep =>
        Option.bind (minRow delta alpha P rep) (fun row =>
          Option.bind (buildRows delta alpha P (i + 1) rest) (fun rows =>
            some ((i, row) :: rows)))) = some mtr := h
    obtain ⟨rep, hrep, h2⟩ := obind_inv h
    obtain ⟨row, hrow, h3⟩ := obind_inv h2
    obtain ⟨rows, hrows, h4⟩ := obind_inv h3
    obtain rfl := (Option.some_inj.1 h4).symm
    obtain ⟨ihkeys, ihmem, ihall⟩ := ih (i + 1) rows hrows
    have hkeys : akeys ((i, row) :: rows) = List.range' i (Y :: rest).length := by
      show i :: akeys rows = List.range' i (rest.length + 1)
      rw [ihkeys, List.range'_succ]
    refine ⟨hkeys, ?_, ?_⟩
    · intro kv hkv
      rcases List.mem_cons.1 hkv with rfl | hkv2
      · exact ⟨Y, rep, by simp, hrep, hrow⟩
      · obtain ⟨Z, rep2, hz, hrep2, hrow2⟩ := ihmem kv hkv2
        have hge : i + 1 ≤ kv.1 := by
          have : kv.1 ∈ akeys rows := List.mem_map.2 ⟨kv, hkv2, rfl⟩
          rw [ihkeys] at this
          have := List.mem_range'_1.1 this
          omega
        refine ⟨Z, rep2, ?_, hrep2, hrow2⟩
        have : kv.1 - i = (kv.1 - (i + 1)) + 1 := by omega
        rw [this]
        simpa using hz
    · intro j Z hj
      cases j with
      | zero =>
        obtain rfl : Y = Z := by simpa using hj
        exact ⟨rep, row, hrep, hrow, by simp⟩
      | succ j2 =>
        obtain ⟨rep2, row2, hrep2, hrow2, hmem2⟩ := ihall j2 Z (by simpa using hj)
        refine ⟨rep2, row2, hrep2, hrow2, ?_⟩
        have : i + (j2 + 1) = (i + 1) + j2 := by omega
        rw [this]
        exact List.mem_cons_of_mem _ hmem2

theorem alookup_of_mem_nodup {κ β : Type} [DecidableEq κ] {k : κ} {v : β} {l : List (κ × β)}
    (hmem : (k, v) ∈ l) (hnd : (akeys l).Nodup) : alookup k l = some v := by
  induction l with
  | nil => cases hmem
  | cons hd t ih =>
    simp only [akeys, List.map_cons, List.nodup_cons] at hnd
    rcases List.mem_cons.1 hmem with rfl | h1
    · simp [alookup]
    · have hk : hd.1 ≠ k := by
        intro he
        exact hnd.1 (he ▸ List.mem_map.2 ⟨(k, v), h1, rfl⟩)
      rw [alookup, if_neg hk]
      exact ih h1 hnd.2

/-- Claim C3: in every DFA returned by the pipeline, every state that
appears (as a key or as a transition target) is a key whose row has exactly
one entry per alphabet symbol (the keys of the row are duplicate-free and
each alphabet symbol is among them), and each successor is again a state of
the returned DFA. -/
theorem claim_C3 {regex alpha : List Char} {fuel c0 : Nat} {res : DFAResult}
    (h : (regex_to_dfa regex alpha fuel c0).1 = some res) :
    ∀ s, appearsIn res.transitions s →
      ∃ row, alookup s res.transitions = some row ∧ (akeys row).Nodup ∧
        (∀ e ∈ row, e.1 ∈ alpha) ∧
        ∀ c ∈ alpha, ∃ v, alookup c row = some v ∧ v ∈ akeys res.transitions := by
  obtain ⟨tree, ns, na, ntr, dtr, st0, dstates, dead, mtr, mstart, macc,
    hp, hb, hnd, hmin, hst, hacc, htr, hrg, hdead⟩ := regex_to_dfa_inv h
  obtain ⟨statesL, P, maccRaw, hcol, href, hbuild, hbs, hbm, hbacc⟩ := minimize_dfa_inv hmin
  obtain ⟨hkeys, hmem, hall⟩ := buildRows_inv P 0 mtr hbuild
  rw [htr]
  have hknodup : (akeys mtr).Nodup := by
    rw [hkeys]
    exact List.nodup_range' 0 P.length
  have hkiff : ∀ v, v ∈ akeys mtr ↔ v < P.length := by
    intro v
    rw [hkeys]
    simp only [List.mem_range'_1]
    omega
  have keyCase : ∀ s, s ∈ akeys mtr →
      ∃ row, alookup s mtr = some row ∧ (akeys row).Nodup ∧
        (∀ e ∈ row, e.1 ∈ alpha) ∧
        ∀ c ∈ alpha, ∃ v, alookup c row = some v ∧ v ∈ akeys mtr := by
    intro s hs
    have hsome := alookup_isSome_of_mem hs
    obtain ⟨row, hrow⟩ := Option.isSome_iff_exists.1 hsome
    obtain ⟨Y, rep, hY, hrep, hminrow⟩ := hmem (s, row) (mem_of_alookup hrow)
    obtain ⟨m1, m2, m3, m4⟩ := minRow_inv alpha [] row hminrow
    refine ⟨row, hrow, m3 (by simp [akeys]), ?_, ?_⟩
    · intro e he
      rcases m4 e he with h1 | h1
      · cases h1
      · exact h1.1
    · intro c hc
      obtain ⟨k, hk, hlook⟩ := m1 c hc
      exact ⟨k, hlook, (hkiff k).2 (blockIdxOpt_lt hk)⟩
  intro s hs
  rcases hs with hs | hs
  · exact keyCase s hs
  · obtain ⟨kv, hkv, e, he, hse⟩ := hs
    obtain ⟨Y, rep, hY, hrep, hminrow⟩ := hmem kv hkv
    obtain ⟨m1, m2, m3, m4⟩ := minRow_inv alpha [] kv.2 hminrow
    rcases m4 e he with h1 | h1
    · cases h1
    · refine keyCase s ?_
      rw [← hse]
      exact (hkiff e.2).2 (blockIdxOpt_lt h1.2)

theorem claim_C3_witness :
    ∃ row, alookup 0 ([(0, [('a', 0)])] : DTrans) = some row ∧ (akeys row).Nodup ∧
      (∀ e ∈ row, e.1 ∈ ['a']) ∧
      ∀ c ∈ ['a'], ∃ v, alookup c row = some v ∧
        v ∈ akeys ([(0, [('a', 0)])] : DTrans) := by
  have := @claim_C3 ['a', '*'] ['a'] 100 0
    ⟨0, [0], [], [(0, [('a', 0)])], ['a', '*']⟩ (by decide) 0 (Or.inl (by decide))
  simpa using this

/-- Claim C5: in the pipeline result, a state is listed in `dead_states`
exactly when it is a state of the DFA that is not accepting and all of whose
row entries are self-loops; and from such a state no word over the alphabet
(indeed no word at all) reaches an accepting state. -/
theorem claim_C5 {regex alpha : List Char} {fuel c0 : Nat} {res : DFAResult}
    (h : (regex_to_dfa regex alpha fuel c0).1 = some res) :
    (∀ s, s ∈ res.dead_states ↔ ∃ row, alookup s res.transitions = some row ∧
        s ∉ res.accept_states ∧ ∀ e ∈ row, e.2 = s) ∧
    (∀ s ∈ res.dead_states, ∀ w : List Char, (∀ c ∈ w, c ∈ alpha) →
        dfaWalk res.transitions s w ∉ res.accept_states) := by
  obtain ⟨tree, ns, na, ntr, dtr, st0, dstates, dead, mtr, mstart, macc,
    hp, hb, hnd, hmin, hst, hacc, htr, hrg, hdead⟩ := regex_to_dfa_inv h
  obtain ⟨statesL, P, maccRaw, hcol, href, hbuild, hbs, hbm, hbacc⟩ := minimize_dfa_inv hmin
  obtain ⟨hkeys, hmem, hall⟩ := buildRows_inv P 0 mtr hbuild
  have hknodup : (akeys mtr).Nodup := by
    rw [hkeys]
    exact List.nodup_range' 0 P.length
  have hchar : ∀ s, s ∈ res.dead_states ↔ ∃ row, alookup s mtr = some row ∧
      s ∉ macc ∧ ∀ e ∈ row, e.2 = s := by
    intro s
    rw [hdead]
    constructor
    · intro hs
      obtain ⟨kv, hkv, hcond⟩ := List.mem_filterMap.1 hs
      by_cases hc : (!macc.contains kv.1 && kv.2.all (fun e => e.2 = kv.1)) = true
      · rw [if_pos hc] at hcond
        obtain rfl := Option.some_inj.1 hcond
        have hand := Bool.and_eq_true_iff.1 hc
        refine ⟨kv.2, ?_, ?_, ?_⟩
        · exact alookup_of_mem_nodup (by rw [← Prod.mk.eta (p := kv)] at hkv; exact hkv) hknodup
        · intro hmem2
          have hcon : macc.contains kv.1 = true := contains_iff.2 hmem2
          have hx := hand.1
          rw [hcon] at hx
          simp at hx
        · intro e he
          have := List.all_eq_true.1 hand.2 e he
          simpa using this
      · rw [if_neg hc] at hcond
        cases hcond
    · rintro ⟨row, hrow, hnacc, hself⟩
      refine List.mem_filterMap.2 ⟨(s, row), mem_of_alookup hrow, ?_⟩
      have hc : (!macc.contains s && row.all (fun e => e.2 = s)) = true := by
        refine Bool.and_eq_true_iff.2 ⟨?_, ?_⟩
        · have hcs : macc.contains s = false := by
            cases hcs2 : macc.contains s with
            | false => rfl
            | true => exact absurd (contains_iff.1 hcs2) hnacc
          rw [hcs]
          rfl
        · exact List.all_eq_true.2 (fun e he => by simpa using hself e he)
      rw [if_pos hc]
  refine ⟨by rw [hacc, htr]; exact hchar, ?_⟩
  intro s hs w hw
  obtain ⟨row, hrow, hnacc, hself⟩ := (hchar s).1 hs
  have hstay : ∀ w2 : List Char, dfaWalk mtr s w2 = s := by
    intro w2
    induction w2 with
    | nil => rfl
    | cons c w3 ih =>
      have hdelta : deltaOf mtr s c = s := by
        unfold deltaOf alookup2
        rw [hrow]
        show (alookup c row).getD s = s
        cases hlook : alookup c row with
        | none => rfl
        | some v =>
          have : (c, v) ∈ row := mem_of_alookup hlook
          simpa using hself (c, v) this
      show walkD (deltaOf mtr) (deltaOf mtr s c) w3 = s
      rw [hdelta]
      exact ih
  rw [htr, hacc, hstay w]
  exact hnacc

theorem claim_C5_witness :
    dfaWalk [(0, [('a', 1), ('b', 1)]), (1, [('a', 1), ('b', 1)]), (2, [('a', 0), ('b', 1)])]
      1 ['a'] ∉ ([0] : List Nat) :=
  (@claim_C5 ['a'] ['a', 'b'] 100 0
    ⟨2, [0], [1],
      [(0, [('a', 1), ('b', 1)]), (1, [('a', 1), ('b', 1)]), (2, [('a', 0), ('b', 1)])],
      ['a']⟩ (by decide)).2 1 (by decide) ['a'] (by decide)

/-! ### Utilities for Option-valued maps -/

theorem mapM_some_forward {α β : Type} {f : α → Option β} :
    ∀ {l : List α} {l2 : List β}, l.mapM f = some l2 →
      ∀ a ∈ l, ∃ b, f a = some b ∧ b ∈ l2 := by
  intro l
  induction l with
  | nil => intro l2 h a ha; cases ha
  | cons x xs ih =>
    intro l2 h a ha
    rw [List.mapM_cons] at h
    obtain ⟨b, hb, h2⟩ := obind_inv h
    obtain ⟨bs, hbs, h3⟩ := obind_inv h2
    obtain rfl := (Option.some_inj.1 h3).symm
    rcases List.mem_cons.1 ha with rfl | ha2
    · exact ⟨b, hb, List.mem_cons_self _ _⟩
    · obtain ⟨b2, hb2, hmem⟩ := ih hbs a ha2
      exact ⟨b2, hb2, List.mem_cons_of_mem _ hmem⟩

theorem mapM_some_backward {α β : Type} {f : α → Option β} :
    ∀ {l : List α} {l2 : List β}, l.mapM f = some l2 →
      ∀ b ∈ l2, ∃ a ∈ l, f a = some b := by
  intro l
  induction l with
  | nil =>
    intro l2 h b hb
    replace h : some ([] : List β) = some l2 := h
    obtain rfl := (Option.some_inj.1 h).symm
    cases hb
  | cons x xs ih =>
    intro l2 h b hb
    rw [List.mapM_cons] at h
    obtain ⟨b2, hb2, h2⟩ := obind_inv h
    obtain ⟨bs, hbs, h3⟩ := obind_inv h2
    obtain rfl := (Option.some_inj.1 h3).symm
    rcases List.mem_cons.1 hb with rfl | hb3
    · exact ⟨x, List.mem_cons_self _ _, hb2⟩
    · obtain ⟨a, ha, hfa⟩ := ih hbs b hb3
      exact ⟨a, List.mem_cons_of_mem _ ha, hfa⟩

theorem head?_mem {α : Type} {l : List α} {a : α} (h : l.head? = some a) : a ∈ l := by
  cases l with
  | nil => cases h
  | cons x xs =>
    obtain rfl : x = a := Option.some_inj.1 h
    exact List.mem_cons_self _ _

/-! ### Invariants of the subset-construction loop -/

theorem akeys_setCell_mono {t : DTrans} {s : Nat} {c : Char} {v : Nat} {k : Nat}
    (h : k ∈ akeys t) : k ∈ akeys (setCell t s c v) := by
  unfold setCell
  exact (akeys_aupdate s k _ t).2 (Or.inr h)

theorem subSyms_facts (tr : NTrans) (cur : List Nat) (curId : Nat) :
    ∀ (cs : List Char) (st st2 : SubSt) (news : List (List Nat)),
      subSyms tr cur curId cs st = (st2, news) →
      (∀ kv ∈ st.dstates, kv ∈ st2.dstates) ∧
      (∀ kv ∈ st2.dstates, kv ∈ st.dstates ∨ kv.1 ∈ news) ∧
      (∀ s ∈ akeys st.dtrans, s ∈ akeys st2.dtrans) ∧
      ((akeys st.dstates).Nodup → (akeys st2.dstates).Nodup) := by
  intro cs
  induction cs with
  | nil =>
    intro st st2 news h
    obtain ⟨rfl, rfl⟩ : st = st2 ∧ ([] : List (List Nat)) = news := by
      have h2 : (st, ([] : List (List Nat))) = (st2, news) := h
      exact ⟨congrArg Prod.fst h2, congrArg Prod.snd h2⟩
    exact ⟨fun kv hkv => hkv, fun kv hkv => Or.inl hkv, fun s hs => hs, fun hn => hn⟩
  | cons c cs ih =>
    intro st st2 news h
    rw [subSyms] at h
    by_cases hcl : (sortDedup (epsilon_closure tr (cur.flatMap
        (fun s => ntargets tr s (some c))))).isEmpty
    · rw [if_pos hcl] at h
      cases hdead : st.dead with
      | some d =>
        rw [hdead] at h
        obtain ⟨h1, h2, h3, h4⟩ := ih _ _ _ h
        exact ⟨h1, h2, fun s hs => h3 s (akeys_setCell_mono hs), h4⟩
      | none =>
        rw [hdead] at h
        obtain ⟨h1, h2, h3, h4⟩ := ih _ _ _ h
        refine ⟨h1, h2, ?_, h4⟩
        intro s hs
        refine h3 s ?_
        exact akeys_setCell_mono ((akeys_aupdate st.nextId s _ st.dtrans).2 (Or.inr hs))
    · rw [if_neg hcl] at h
      cases hlook : alookup (sortDedup (epsilon_closure tr (cur.flatMap
          (fun s => ntargets tr s (some c))))) st.dstates with
      | some tid =>
        rw [hlook] at h
        obtain ⟨h1, h2, h3, h4⟩ := ih _ _ _ h
        exact ⟨h1, h2, fun s hs => h3 s (akeys_setCell_mono hs), h4⟩
      | none =>
        rw [hlook] at h
        replace h : (match subSyms tr cur curId cs
            { st with
              dstates := st.dstates ++ [(sortDedup (epsilon_closure tr (cur.flatMap
                (fun s => ntargets tr s (some c)))), st.nextId)]
              nextId := st.nextId + 1
              dtrans := setCell st.dtrans curId c st.nextId } with
          | (st3, news3) => (st3, sortDedup (epsilon_closure tr (cur.flatMap
              (fun s => ntargets tr s (some c)))) :: news3)) = (st2, news) := h
        rcases hrec : subSyms tr cur curId cs
            { st with
              dstates := st.dstates ++ [(sortDedup (epsilon_closure tr (cur.flatMap
                (fun s => ntargets tr s (some c)))), st.nextId)]
              nextId := st.nextId + 1
              dtrans := setCell st.dtrans curId c st.nextId } with ⟨st2b, news2⟩
        rw [hrec] at h
        obtain ⟨rfl, rfl⟩ : st2b = st2 ∧
            (sortDedup (epsilon_closure tr (cur.flatMap
              (fun s => ntargets tr s (some c)))) :: news2) = news := by
          exact ⟨congrArg Prod.fst h, congrArg Prod.snd h⟩
        obtain ⟨h1, h2, h3, h4⟩ := ih _ _ _ hrec
        refine ⟨?_, ?_, ?_, ?_⟩
        · intro kv hkv
          exact h1 kv (List.mem_append_left _ hkv)
        · intro kv hkv
          rcases h2 kv hkv with h5 | h5
          · rcases List.mem_append.1 h5 with h6 | h6
            · exact Or.inl h6
            · simp only [List.mem_singleton] at h6
              subst h6
              exact Or.inr (List.mem_cons_self _ _)
          · exact Or.inr (List.mem_cons_of_mem _ h5)
        · intro s hs
          exact h3 s (akeys_setCell_mono hs)
        · intro hn
          refine h4 ?_
          simp only [akeys, List.map_append, List.map_cons, List.map_nil]
          rw [List.nodup_append]
          refine ⟨hn, List.nodup_singleton _, ?_⟩
          intro a ha hb
          simp only [List.mem_singleton] at hb
          subst hb
          have := alookup_isSome_of_mem (l := st.dstates) (by simpa [akeys] using ha)
          rw [hlook] at this
          cases this

theorem subLoop_invariant (tr : NTrans) (alpha : List Char) :
    ∀ (fuel : Nat) (unmarked : List (List Nat)) (st st2 : SubSt),
      subLoop tr alpha fuel unmarked st = some st2 →
      (akeys st.dstates).Nodup →
      (∀ kv ∈ st.dstates, kv.2 ∈ akeys st.dtrans ∨ kv.1 ∈ unmarked) →
      (∀ kv ∈ st.dstates, kv ∈ st2.dstates) ∧
      (∀ kv ∈ st2.dstates, kv.2 ∈ akeys st2.dtrans) := by
  intro fuel
  induction fuel with
  | zero =>
    intro unmarked st st2 h hnd hinv
    cases unmarked with
    | nil =>
      replace h : some st = some st2 := h
      obtain rfl := Option.some_inj.1 h
      refine ⟨fun kv hkv => hkv, ?_⟩
      intro kv hkv
      rcases hinv kv hkv with h1 | h1
      · exact h1
      · cases h1
    | cons cur rest => cases h
  | succ fuel ih =>
    intro unmarked st st2 h hnd hinv
    cases unmarked with
    | nil =>
      replace h : some st = some st2 := h
      obtain rfl := Option.some_inj.1 h
      refine ⟨fun kv hkv => hkv, ?_⟩
      intro kv hkv
      rcases hinv kv hkv with h1 | h1
      · exact h1
      · cases h1
    | cons cur rest =>
      rw [subLoop] at h
      cases hlook : alookup cur st.dstates with
      | none => rw [hlook] at h; cases h
      | some curId =>
        rw [hlook] at h
        replace h : (match subSyms tr cur curId alpha
            { st with dtrans := aupdate curId [] st.dtrans } with
          | (st3, news) => subLoop tr alpha fuel (rest ++ news) st3) = some st2 := h
        rcases hsyms : subSyms tr cur curId alpha
            { st with dtrans := aupdate curId [] st.dtrans } with ⟨st3, news⟩
        rw [hsyms] at h
        obtain ⟨f1, f2, f3, f4⟩ := subSyms_facts tr cur curId alpha _ _ _ hsyms
        have hnd3 : (akeys st3.dstates).Nodup := f4 hnd
        have hinv3 : ∀ kv ∈ st3.dstates, kv.2 ∈ akeys st3.dtrans ∨ kv.1 ∈ rest ++ news := by
          intro kv hkv
          rcases f2 kv hkv with h1 | h1
          · rcases hinv kv h1 with h2 | h2
            · exact Or.inl (f3 kv.2 (by
                exact (akeys_aupdate curId kv.2 ([] : List (Char × Nat)) st.dtrans).2
                  (Or.inr h2)))
            · rcases List.mem_cons.1 h2 with h3 | h3
              · -- kv.1 = cur: its id was keyed by the row write
                refine Or.inl (f3 kv.2 ?_)
                have : kv.2 = curId := by
                  have hl := alookup_of_mem_nodup (k := kv.1) (v := kv.2) (l := st.dstates)
                    (by rw [← Prod.mk.eta (p := kv)] at h1; exact h1) hnd
                  rw [h3] at hl
                  rw [hl] at hlook
                  exact Option.some_inj.1 hlook
                rw [this]
                exact (akeys_aupdate curId curId ([] : List (Char × Nat)) st.dtrans).2
                  (Or.inl rfl)
              · exact Or.inr (List.mem_append_left _ h3)
          · exact Or.inr (List.mem_append_right _ h1)
        obtain ⟨g1, g2⟩ := ih (rest ++ news) st3 st2 h hnd3 hinv3
        exact ⟨fun kv hkv => g1 kv (f1 kv hkv), g2⟩

theorem nfa_to_dfa_facts {ns na : Nat} {ntr : NTrans} {alpha : List Char} {fuel : Nat}
    {dtr : DTrans} {st0 : Nat} {dstates : List (List Nat × Nat)} {dead : Option Nat}
    (h : nfa_to_dfa ns na ntr alpha fuel = some (dtr, st0, dstates, dead)) :
    st0 = 0 ∧ 0 ∈ akeys dtr ∧ ∀ kv ∈ dstates, kv.2 ∈ akeys dtr := by
  unfold nfa_to_dfa at h
  obtain ⟨st2, hloop, hout⟩ := Option.map_eq_some'.1 h
  have hdtr : st2.dtrans = dtr := congrArg (fun q => q.1) hout
  have hst0 : (0 : Nat) = st0 := congrArg (fun q => q.2.1) hout
  have hds : st2.dstates = dstates := congrArg (fun q => q.2.2.1) hout
  obtain ⟨g1, g2⟩ := subLoop_invariant ntr alpha fuel
    [sortDedup (epsilon_closure ntr [ns])]
    ⟨[(sortDedup (epsilon_closure ntr [ns]), 0)], [], 1, none⟩ st2 hloop
    (by simp [akeys])
    (by
      intro kv hkv
      simp only [List.mem_singleton] at hkv
      subst hkv
      exact Or.inr (List.mem_singleton.2 rfl))
  refine ⟨hst0.symm, ?_, ?_⟩
  · have hmem := g1 (sortDedup (epsilon_closure ntr [ns]), 0) (List.mem_singleton.2 rfl)
    have := g2 _ hmem
    rw [hdtr] at this
    exact this
  · intro kv hkv
    have := g2 kv (by rw [hds]; exact hkv)
    rw [hdtr] at this
    exact this

theorem get_accept_states_sub {dstates : List (List Nat × Nat)} {na : Nat} :
    ∀ x ∈ get_accept_states dstates na, ∃ kv ∈ dstates, kv.2 = x := by
  intro x hx
  unfold get_accept_states at hx
  rw [mem_sortDedup] at hx
  obtain ⟨kv, hkv, hx2⟩ := List.mem_map.1 hx
  exact ⟨kv, List.mem_of_mem_filter hkv, hx2⟩

theorem akeys_deadCompleted_mono {dtr : DTrans} {dead : Option Nat} {alpha : List Char}
    {k : Nat} (h : k ∈ akeys dtr) : k ∈ akeys (deadCompleted dtr dead alpha) := by
  cases dead with
  | none => exact h
  | some d =>
    show k ∈ akeys (alpha.foldl (fun t c => setCell t d c d) dtr)
    induction alpha generalizing dtr with
    | nil => exact h
    | cons c cs ih => exact ih (akeys_setCell_mono h)

theorem delta_closure {t : DTrans} {alpha : List Char} {statesL : List Nat}
    (h : collectStates t alpha = some statesL) :
    ∀ s ∈ statesL, ∀ c ∈ alpha, deltaOf (completeTransitions t statesL alpha) s c ∈ statesL := by
  obtain ⟨hnd, hkeys, tg, htg, hdef⟩ := collectStates_inv h
  intro s hs c hc
  unfold deltaOf
  rw [completed_lookup2_mem t alpha statesL hnd s c hs]
  cases hv : alookup2 t s c with
  | none =>
    rw [if_pos hc]
    exact hs
  | some v =>
    show v ∈ statesL
    cases hrow : alookup s t with
    | none => rw [alookup2, hrow] at hv; cases hv
    | some row =>
      have hsk : s ∈ akeys t := mem_akeys_of_alookup hrow
      obtain ⟨rowv, hrowv, hmem⟩ := mapM_some_forward htg s hsk
      obtain ⟨b, hb, hbmem⟩ := mapM_some_forward hrowv c hc
      have hbv : b = v := by
        have : alookup2 t s c = some b := hb
        rw [hv] at this
        exact (Option.some_inj.1 this).symm
      subst hbv
      rw [hdef, mem_sortDedup]
      exact List.mem_append_right _ (List.mem_flatten.2 ⟨rowv, hmem, hbmem⟩)

theorem deltaOf_complete_eq {t : DTrans} {statesL : List Nat} {alpha : List Char}
    (hnd : statesL.Nodup) :
    ∀ s c, deltaOf (completeTransitions t statesL alpha) s c = deltaOf t s c := by
  intro s c
  unfold deltaOf
  by_cases hs : s ∈ statesL
  · rw [completed_lookup2_mem t alpha statesL hnd s c hs]
    cases hv : alookup2 t s c with
    | some v => rfl
    | none =>
      by_cases hc : c ∈ alpha
      · rw [if_pos hc]; rfl
      · rw [if_neg hc]
  · rw [completed_lookup2_notmem t alpha statesL hnd s c hs]

theorem mem_filter_contains {X Y : List Nat} {s : Nat} :
    s ∈ Y.filter (fun u => X.contains u) ↔ s ∈ Y ∧ s ∈ X := by
  rw [List.mem_filter, contains_iff]

theorem mem_filter_ncontains {X Y : List Nat} {s : Nat} :
    s ∈ Y.filter (fun u => !X.contains u) ↔ s ∈ Y ∧ s ∉ X := by
  rw [List.mem_filter]
  constructor
  · rintro ⟨h1, h2⟩
    refine ⟨h1, fun hc => ?_⟩
    rw [contains_iff.2 hc] at h2
    cases h2
  · rintro ⟨h1, h2⟩
    refine ⟨h1, ?_⟩
    cases hc : X.contains s with
    | false => rfl
    | true => exact absurd (contains_iff.1 hc) h2

theorem homog_of_nosplit {X Y : List Nat}
    (h : ((Y.filter (fun u => X.contains u)).isEmpty
      || (Y.filter (fun u => !X.contains u)).isEmpty) = true) :
    ∀ p ∈ Y, ∀ q ∈ Y, (p ∈ X ↔ q ∈ X) := by
  intro p hp q hq
  rcases Bool.or_eq_true_iff.1 h with h1 | h1
  · have he := List.isEmpty_iff.1 h1
    constructor
    · intro hpx
      exact absurd (mem_filter_contains.2 ⟨hp, hpx⟩) (by rw [he]; exact List.not_mem_nil p)
    · intro hqx
      exact absurd (mem_filter_contains.2 ⟨hq, hqx⟩) (by rw [he]; exact List.not_mem_nil q)
  · have he := List.isEmpty_iff.1 h1
    constructor
    · intro _
      by_contra hqx
      exact absurd (mem_filter_ncontains.2 ⟨hq, hqx⟩) (by rw [he]; exact List.not_mem_nil q)
    · intro _
      by_contra hpx
      exact absurd (mem_filter_ncontains.2 ⟨hp, hpx⟩) (by rw [he]; exact List.not_mem_nil p)

theorem splitAll_refines {X : List Nat} :
    ∀ (P W : List (List Nat)), ∀ Y2 ∈ (splitAll X P W).1, ∃ Y ∈ P, ∀ s ∈ Y2, s ∈ Y := by
  intro P
  induction P with
  | nil => intro W Y2 h; cases h
  | cons Y P ih =>
    intro W Y2 h
    simp only [splitAll] at h
    by_cases hsplit : ((Y.filter (fun u => X.contains u)).isEmpty
        || (Y.filter (fun u => !X.contains u)).isEmpty) = true
    · rw [if_pos hsplit] at h
      rcases List.mem_cons.1 h with rfl | h2
      · exact ⟨Y2, List.mem_cons_self _ _, fun s hs => hs⟩
      · obtain ⟨Z, hz, hsub⟩ := ih W Y2 h2
        exact ⟨Z, List.mem_cons_of_mem _ hz, hsub⟩
    · rw [if_neg hsplit] at h
      rcases List.mem_cons.1 h with rfl | h2
      · exact ⟨Y, List.mem_cons_self _ _, fun s hs => (mem_filter_contains.1 hs).1⟩
      rcases List.mem_cons.1 h2 with rfl | h3
      · exact ⟨Y, List.mem_cons_self _ _, fun s hs => (mem_filter_ncontains.1 hs).1⟩
      · obtain ⟨Z, hz, hsub⟩ := ih _ Y2 h3
        exact ⟨Z, List.mem_cons_of_mem _ hz, hsub⟩

theorem splitAll_covers {X : List Nat} :
    ∀ (P W : List (List Nat)), ∀ Y ∈ P, ∀ s ∈ Y,
      ∃ Y2 ∈ (splitAll X P W).1, s ∈ Y2 ∧ ∀ u ∈ Y2, u ∈ Y := by
  intro P
  induction P with
  | nil => intro W Y h; cases h
  | cons Z P ih =>
    intro W Y hY s hs
    simp only [splitAll]
    by_cases hsplit : ((Z.filter (fun u => X.contains u)).isEmpty
        || (Z.filter (fun u => !X.contains u)).isEmpty) = true
    · rw [if_pos hsplit]
      rcases List.mem_cons.1 hY with rfl | h2
      · exact ⟨Y, List.mem_cons_self _ _, hs, fun u hu => hu⟩
      · obtain ⟨Y2, hY2, hsY2, hsub⟩ := ih W Y h2 s hs
        exact ⟨Y2, List.mem_cons_of_mem _ hY2, hsY2, hsub⟩
    · rw [if_neg hsplit]
      rcases List.mem_cons.1 hY with rfl | h2
      · by_cases hsx : s ∈ X
        · exact ⟨Y.filter (fun u => X.contains u), List.mem_cons_self _ _,
            mem_filter_contains.2 ⟨hs, hsx⟩, fun u hu => (mem_filter_contains.1 hu).1⟩
        · refine ⟨Y.filter (fun u => !X.contains u),
            List.mem_cons_of_mem _ (List.mem_cons_self _ _),
            mem_filter_ncontains.2 ⟨hs, hsx⟩, fun u hu => (mem_filter_ncontains.1 hu).1⟩
      · obtain ⟨Y2, hY2, hsY2, hsub⟩ := ih _ Y h2 s hs
        exact ⟨Y2, List.mem_cons_of_mem _ (List.mem_cons_of_mem _ hY2), hsY2, hsub⟩

theorem splitAll_nonempty {X : List Nat} :
    ∀ (P W : List (List Nat)), (∀ Y ∈ P, Y ≠ []) →
      ∀ Y2 ∈ (splitAll X P W).1, Y2 ≠ [] := by
  intro P
  induction P with
  | nil => intro W _ Y2 h; cases h
  | cons Y P ih =>
    intro W hne Y2 h
    simp only [splitAll] at h
    by_cases hsplit : ((Y.filter (fun u => X.contains u)).isEmpty
        || (Y.filter (fun u => !X.contains u)).isEmpty) = true
    · rw [if_pos hsplit] at h
      rcases List.mem_cons.1 h with rfl | h2
      · exact hne Y2 (List.mem_cons_self _ _)
      · exact ih W (fun Z hZ => hne Z (List.mem_cons_of_mem _ hZ)) Y2 h2
    · rw [if_neg hsplit] at h
      have hcond : ((Y.filter (fun u => X.contains u)).isEmpty
          || (Y.filter (fun u => !X.contains u)).isEmpty) = false := by
        cases hco : ((Y.filter (fun u => X.contains u)).isEmpty
            || (Y.filter (fun u => !X.contains u)).isEmpty) with
        | true => exact absurd hco hsplit
        | false => rfl
      have hboth := Bool.or_eq_false_iff.1 hcond
      rcases List.mem_cons.1 h with rfl | h2
      · intro hcon
        rw [hcon] at hboth
        simp at hboth
      rcases List.mem_cons.1 h2 with rfl | h3
      · intro hcon
        rw [hcon] at hboth
        simp at hboth

      · exact ih _ (fun Z hZ => hne Z (List.mem_cons_of_mem _ hZ)) Y2 h3

theorem splitAll_homog {X : List Nat} :
    ∀ (P W : List (List Nat)), ∀ Y2 ∈ (splitAll X P W).1,
      ∀ p ∈ Y2, ∀ q ∈ Y2, (p ∈ X ↔ q ∈ X) := by
  intro P
  induction P with
  | nil => intro W Y2 h; cases h
  | cons Y P ih =>
    intro W Y2 h
    simp only [splitAll] at h
    by_cases hsplit : ((Y.filter (fun u => X.contains u)).isEmpty
        || (Y.filter (fun u => !X.contains u)).isEmpty) = true
    · rw [if_pos hsplit] at h
      rcases List.mem_cons.1 h with rfl | h2
      · exact homog_of_nosplit hsplit
      · exact ih W Y2 h2
    · rw [if_neg hsplit] at h
      rcases List.mem_cons.1 h with rfl | h2
      · intro p hp q hq
        exact ⟨fun _ => (mem_filter_contains.1 hq).2, fun _ => (mem_filter_contains.1 hp).2⟩
      rcases List.mem_cons.1 h2 with rfl | h3
      · intro p hp q hq
        exact ⟨fun hx => absurd hx (mem_filter_ncontains.1 hp).2,
          fun hx => absurd hx (mem_filter_ncontains.1 hq).2⟩
      · exact ih _ Y2 h3

theorem splitAll_sameB {X : List Nat} :
    ∀ (P W : List (List Nat)) (p q : Nat), SameB P p q → (p ∈ X ↔ q ∈ X) →
      SameB (splitAll X P W).1 p q := by
  intro P
  induction P with
  | nil =>
    rintro W p q ⟨Y, hY, _⟩ _
    cases hY
  | cons Y P ih =>
    rintro W p q ⟨Z, hZ, hp, hq⟩ hpq
    simp only [splitAll]
    by_cases hsplit : ((Y.filter (fun u => X.contains u)).isEmpty
        || (Y.filter (fun u => !X.contains u)).isEmpty) = true
    · rw [if_pos hsplit]
      rcases List.mem_cons.1 hZ with rfl | h2
      · exact ⟨Z, List.mem_cons_self _ _, hp, hq⟩
      · obtain ⟨Y2, hY2, hp2, hq2⟩ := ih W p q ⟨Z, h2, hp, hq⟩ hpq
        exact ⟨Y2, List.mem_cons_of_mem _ hY2, hp2, hq2⟩
    · rw [if_neg hsplit]
      rcases List.mem_cons.1 hZ with rfl | h2
      · by_cases hpx : p ∈ X
        · exact ⟨Z.filter (fun u => X.contains u), List.mem_cons_self _ _,
            mem_filter_contains.2 ⟨hp, hpx⟩, mem_filter_contains.2 ⟨hq, hpq.1 hpx⟩⟩
        · have hqx : q ∉ X := fun hc => hpx (hpq.2 hc)
          exact ⟨Z.filter (fun u => !X.contains u),
            List.mem_cons_of_mem _ (List.mem_cons_self _ _),
            mem_filter_ncontains.2 ⟨hp, hpx⟩, mem_filter_ncontains.2 ⟨hq, hqx⟩⟩
      · obtain ⟨Y2, hY2, hp2, hq2⟩ := ih _ p q ⟨Z, h2, hp, hq⟩ hpq
        exact ⟨Y2, List.mem_cons_of_mem _ (List.mem_cons_of_mem _ hY2), hp2, hq2⟩

theorem splitAll_disj {X : List Nat} :
    ∀ (P W : List (List Nat)), DisjB P → DisjB (splitAll X P W).1 := by
  intro P
  induction P with
  | nil => intro W _; exact List.Pairwise.nil
  | cons Y P ih =>
    intro W hd
    obtain ⟨hdY, hdP⟩ := List.pairwise_cons.1 hd
    simp only [splitAll]
    by_cases hsplit : ((Y.filter (fun u => X.contains u)).isEmpty
        || (Y.filter (fun u => !X.contains u)).isEmpty) = true
    · rw [if_pos hsplit]
      refine List.pairwise_cons.2 ⟨?_, ih W hdP⟩
      intro Z hZ s hs
      obtain ⟨Z0, hZ0, hsub⟩ := splitAll_refines P W Z hZ
      intro hsZ
      exact hdY Z0 hZ0 s hs (hsub s hsZ)
    · rw [if_neg hsplit]
      refine List.pairwise_cons.2 ⟨?_, List.pairwise_cons.2 ⟨?_, ih _ hdP⟩⟩
      · intro Z hZ s hs
        rcases List.mem_cons.1 hZ with rfl | h2
        · intro hsZ
          exact absurd (mem_filter_contains.1 hs).2 (mem_filter_ncontains.1 hsZ).2
        · obtain ⟨Z0, hZ0, hsub⟩ := splitAll_refines P _ Z h2
          intro hsZ
          exact hdY Z0 hZ0 s (mem_filter_contains.1 hs).1 (hsub s hsZ)
      · intro Z hZ s hs
        obtain ⟨Z0, hZ0, hsub⟩ := splitAll_refines P _ Z hZ
        intro hsZ
        exact hdY Z0 hZ0 s (mem_filter_ncontains.1 hs).1 (hsub s hsZ)

theorem splitAll_sep_persist {X : List Nat} :
    ∀ (P W : List (List Nat)) (x y : Nat), (∃ B ∈ W, SepB B x y) →
      ∃ B ∈ (splitAll X P W).2, SepB B x y := by
  intro P
  induction P with
  | nil => intro W x y h; exact h
  | cons Y P ih =>
    intro W x y h
    simp only [splitAll]
    by_cases hsplit : ((Y.filter (fun u => X.contains u)).isEmpty
        || (Y.filter (fun u => !X.contains u)).isEmpty) = true
    · rw [if_pos hsplit]
      exact ih W x y h
    · rw [if_neg hsplit]
      obtain ⟨B, hB, hsep⟩ := h
      by_cases hBY : B = Y
      · subst hBY
        have hcont : W.contains B = true := contains_iff.2 hB
        rw [if_pos hcont]
        refine ih _ x y ?_
        -- the separator B is replaced by its two halves, one of which separates
        by_cases hx : x ∈ B
        · have hy : y ∉ B := fun hy => hsep ⟨fun _ => hy, fun _ => hx⟩
          by_cases hxX : x ∈ X
          · refine ⟨B.filter (fun u => X.contains u),
              List.mem_append_right _ (List.mem_cons_self _ _), ?_⟩
            intro hiff
            exact hy (mem_filter_contains.1 (hiff.1 (mem_filter_contains.2 ⟨hx, hxX⟩))).1
          · refine ⟨B.filter (fun u => !X.contains u),
              List.mem_append_right _ (List.mem_cons_of_mem _ (List.mem_cons_self _ _)), ?_⟩
            intro hiff
            exact hy (mem_filter_ncontains.1 (hiff.1 (mem_filter_ncontains.2 ⟨hx, hxX⟩))).1
        · have hy : y ∈ B := by
            by_contra hy
            exact hsep ⟨fun hc => absurd hc hx, fun hc => absurd hc hy⟩
          by_cases hyX : y ∈ X
          · refine ⟨B.filter (fun u => X.contains u),
              List.mem_append_right _ (List.mem_cons_self _ _), ?_⟩
            intro hiff
            exact hx (mem_filter_contains.1 (hiff.2 (mem_filter_contains.2 ⟨hy, hyX⟩))).1
          · refine ⟨B.filter (fun u => !X.contains u),
              List.mem_append_right _ (List.mem_cons_of_mem _ (List.mem_cons_self _ _)), ?_⟩
            intro hiff
            exact hx (mem_filter_ncontains.1 (hiff.2 (mem_filter_ncontains.2 ⟨hy, hyX⟩))).1
      · by_cases hcont : W.contains Y = true
        · rw [if_pos hcont]
          refine ih _ x y ⟨B, List.mem_append_left _ ?_, hsep⟩
          exact (List.mem_erase_of_ne hBY).2 hB
        · rw [if_neg hcont]
          exact ih _ x y ⟨B, List.mem_append_left _ hB, hsep⟩

theorem splitAll_sep_new {X : List Nat} :
    ∀ (P W : List (List Nat)), ∀ Y ∈ P, ∀ x ∈ Y, ∀ y ∈ Y, x ∈ X → y ∉ X →
      ∃ B ∈ (splitAll X P W).2, SepB B x y := by
  intro P
  induction P with
  | nil => intro W Y h; cases h
  | cons Z P ih =>
    intro W Y hY x hx y hy hxX hyX
    simp only [splitAll]
    rcases List.mem_cons.1 hY with rfl | h2
    · have hsplit : ((Y.filter (fun u => X.contains u)).isEmpty
          || (Y.filter (fun u => !X.contains u)).isEmpty) = false := by
        cases hco : ((Y.filter (fun u => X.contains u)).isEmpty
            || (Y.filter (fun u => !X.contains u)).isEmpty) with
        | false => rfl
        | true => exact absurd ((homog_of_nosplit hco x hx y hy).1 hxX) hyX
      rw [if_neg (by rw [hsplit]; exact Bool.false_ne_true)]
      have hsInter : SepB (Y.filter (fun u => X.contains u)) x y := by
        intro hiff
        exact hyX (mem_filter_contains.1 (hiff.1 (mem_filter_contains.2 ⟨hx, hxX⟩))).2
      have hsDiff : SepB (Y.filter (fun u => !X.contains u)) x y := by
        intro hiff
        have hxd := hiff.2 (mem_filter_ncontains.2 ⟨hy, hyX⟩)
        exact (mem_filter_ncontains.1 hxd).2 hxX
      by_cases hcont : W.contains Y = true
      · rw [if_pos hcont]
        exact splitAll_sep_persist P _ x y
          ⟨Y.filter (fun u => X.contains u),
            List.mem_append_right _ (List.mem_cons_self _ _), hsInter⟩
      · rw [if_neg hcont]
        by_cases hlen : (Y.filter (fun u => X.contains u)).length
            ≤ (Y.filter (fun u => !X.contains u)).length
        · rw [if_pos hlen]
          exact splitAll_sep_persist P _ x y
            ⟨Y.filter (fun u => X.contains u),
              List.mem_append_right _ (List.mem_singleton.2 rfl), hsInter⟩
        · rw [if_neg hlen]
          exact splitAll_sep_persist P _ x y
            ⟨Y.filter (fun u => !X.contains u),
              List.mem_append_right _ (List.mem_singleton.2 rfl), hsDiff⟩
    · by_cases hsplit : ((Z.filter (fun u => X.contains u)).isEmpty
          || (Z.filter (fun u => !X.contains u)).isEmpty) = true
      · rw [if_pos hsplit]
        exact ih W Y h2 x hx y hy hxX hyX
      · rw [if_neg hsplit]
        exact ih _ Y h2 x hx y hy hxX hyX

theorem splitAll_W_sub {X : List Nat} :
    ∀ (P W : List (List Nat)), ∀ B ∈ (splitAll X P W).2,
      B ∈ (splitAll X P W).1 ∨ B ∈ W := by
  intro P
  induction P with
  | nil => intro W B h; exact Or.inr h
  | cons Y P ih =>
    intro W B h
    simp only [splitAll] at h ⊢
    by_cases hsplit : ((Y.filter (fun u => X.contains u)).isEmpty
        || (Y.filter (fun u => !X.contains u)).isEmpty) = true
    · rw [if_pos hsplit] at h ⊢
      rcases ih W B h with h2 | h2
      · exact Or.inl (List.mem_cons_of_mem _ h2)
      · exact Or.inr h2
    · rw [if_neg hsplit] at h ⊢
      rcases ih _ B h with h2 | h2
      · exact Or.inl (List.mem_cons_of_mem _ (List.mem_cons_of_mem _ h2))
      · by_cases hcont : W.contains Y = true
        · rw [if_pos hcont] at h2
          rcases List.mem_append.1 h2 with h3 | h3
          · exact Or.inr (List.mem_of_mem_erase h3)
          · rcases List.mem_cons.1 h3 with rfl | h4
            · exact Or.inl (List.mem_cons_self _ _)
            · rcases List.mem_cons.1 h4 with rfl | h5
              · exact Or.inl (List.mem_cons_of_mem _ (List.mem_cons_self _ _))
              · cases h5
        · rw [if_neg hcont] at h2
          rcases List.mem_append.1 h2 with h3 | h3
          · exact Or.inr h3
          · have hB := List.mem_singleton.1 h3
            by_cases hlen : (Y.filter (fun u => X.contains u)).length
                ≤ (Y.filter (fun u => !X.contains u)).length
            · rw [if_pos hlen] at hB
              subst hB
              exact Or.inl (List.mem_cons_self _ _)
            · rw [if_neg hlen] at hB
              subst hB
              exact Or.inl (List.mem_cons_of_mem _ (List.mem_cons_self _ _))

theorem UBlk_of_refines {A : List Nat} {P P2 : List (List Nat)}
    (href : ∀ Y2 ∈ P2, ∃ Y ∈ P, ∀ s ∈ Y2, s ∈ Y) (h : UBlk A P) : UBlk A P2 := by
  intro Y2 hY2
  obtain ⟨Y, hY, hsub⟩ := href Y2 hY2
  rcases h Y hY with h1 | h1
  · exact Or.inl (fun s hs => h1 s (hsub s hs))
  · exact Or.inr (fun s hs => h1 s (hsub s hs))

theorem UBlk_of_mem_disj {A : List Nat} {P : List (List Nat)}
    (hd : DisjB P) (hA : A ∈ P) : UBlk A P := by
  induction P with
  | nil => cases hA
  | cons Z P ih =>
    obtain ⟨hdZ, hdP⟩ := List.pairwise_cons.1 hd
    rcases List.mem_cons.1 hA with rfl | h2
    · intro Y hY
      rcases List.mem_cons.1 hY with rfl | h3
      · exact Or.inl (fun s hs => hs)
      · exact Or.inr (fun s hs => fun hc => hdZ Y h3 s hc hs)
    · intro Y hY
      rcases List.mem_cons.1 hY with rfl | h3
      · exact Or.inr (fun s hs => hdZ A h2 s hs)
      · exact ih hdP h2 Y h3

theorem sameB_of_refines {P P2 : List (List Nat)} {p q : Nat}
    (href : ∀ Y2 ∈ P2, ∃ Y ∈ P, ∀ s ∈ Y2, s ∈ Y) (h : SameB P2 p q) : SameB P p q := by
  obtain ⟨Y2, hY2, hp, hq⟩ := h
  obtain ⟨Y, hY, hsub⟩ := href Y2 hY2
  exact ⟨Y, hY, hsub p hp, hsub q hq⟩

theorem PartInv_splitAll {statesL X : List Nat} {P W : List (List Nat)}
    (h : PartInv statesL P) : PartInv statesL (splitAll X P W).1 := by
  obtain ⟨hne, hd, hcov⟩ := h
  refine ⟨splitAll_nonempty P W hne, splitAll_disj P W hd, ?_⟩
  intro s
  constructor
  · rintro ⟨Y2, hY2, hs⟩
    obtain ⟨Y, hY, hsub⟩ := splitAll_refines P W Y2 hY2
    exact (hcov s).1 ⟨Y, hY, hsub s hs⟩
  · intro hs
    obtain ⟨Y, hY, hsY⟩ := (hcov s).2 hs
    obtain ⟨Y2, hY2, hs2, _⟩ := splitAll_covers P W Y hY s hsY
    exact ⟨Y2, hY2, hs2⟩

theorem AccInv_splitAll {F X : List Nat} {P W : List (List Nat)}
    (h : AccInv F P) : AccInv F (splitAll X P W).1 := by
  intro Y2 hY2
  obtain ⟨Y, hY, hsub⟩ := splitAll_refines P W Y2 hY2
  rcases h Y hY with h1 | h1
  · exact Or.inl (fun s hs => h1 s (hsub s hs))
  · exact Or.inr (fun s hs => h1 s (hsub s hs))

theorem WInv_splitAll {X : List Nat} {P W : List (List Nat)}
    (hW : WInv P W) (hd : DisjB P) : WInv (splitAll X P W).1 (splitAll X P W).2 := by
  intro A2 hA2
  rcases splitAll_W_sub P W A2 hA2 with h1 | h1
  · exact UBlk_of_mem_disj (splitAll_disj P W hd) h1
  · exact UBlk_of_refines (splitAll_refines P W) (hW A2 h1)

theorem SInv_splitAll {delta : Nat → Char → Nat} {F : List Nat} {alpha : List Char}
    {statesL A X : List Nat} {P W : List (List Nat)} {c0 : Char}
    (hX : ∀ s, s ∈ X ↔ s ∈ statesL ∧ delta s c0 ∈ A)
    (hA : UBlk A P)
    (hdelta : ∀ s ∈ statesL, ∀ c ∈ alpha, delta s c ∈ statesL)
    (hc0 : c0 ∈ alpha)
    (hS : SInv delta F alpha statesL P) :
    SInv delta F alpha statesL (splitAll X P W).1 := by
  have main : ∀ p q : Nat, p ∈ statesL → q ∈ statesL → SameB P p q → p ∈ X → q ∉ X →
      DistW delta F alpha p q := by
    intro p q hp hq hsame hpX hqX
    have hpA : delta p c0 ∈ A := ((hX p).1 hpX).2
    have hqA : delta q c0 ∉ A := fun hc => hqX ((hX q).2 ⟨hq, hc⟩)
    have hnsame : ¬SameB P (delta p c0) (delta q c0) := by
      rintro ⟨B, hB, hpB, hqB⟩
      rcases hA B hB with h1 | h1
      · exact hqA (h1 _ hqB)
      · exact h1 _ hpB hpA
    obtain ⟨w, hw, hne⟩ := hS (delta p c0) (hdelta p hp c0 hc0) (delta q c0)
      (hdelta q hq c0 hc0) hnsame
    refine ⟨c0 :: w, ?_, hne⟩
    intro c hc
    rcases List.mem_cons.1 hc with rfl | h
    · exact hc0
    · exact hw c h
  intro p hp q hq hnsame2
  by_cases hsame : SameB P p q
  · have hsep : ¬(p ∈ X ↔ q ∈ X) := fun hiff =>
      hnsame2 (splitAll_sameB P W p q hsame hiff)
    by_cases hpX : p ∈ X
    · by_cases hqX : q ∈ X
      · exact absurd ⟨fun _ => hqX, fun _ => hpX⟩ hsep
      · exact main p q hp hq hsame hpX hqX
    · by_cases hqX : q ∈ X
      · obtain ⟨Y, hY, hp2, hq2⟩ := hsame
        obtain ⟨w, hw, hne⟩ := main q p hq hp ⟨Y, hY, hq2, hp2⟩ hqX hpX
        exact ⟨w, hw, fun hiff => hne (Iff.symm hiff)⟩
      · exact absurd ⟨fun h => absurd h hpX, fun h => absurd h hqX⟩ hsep
  · exact hS p hp q hq hsame

theorem Kmid_splitAll {delta : Nat → Char → Nat} {alpha : List Char}
    {statesL A X : List Nat} {P W : List (List Nat)} {c0 : Char} {cs : List Char}
    (hX : ∀ s, s ∈ X ↔ s ∈ statesL ∧ delta s c0 ∈ A)
    (hK : Kmid delta alpha statesL P W A (c0 :: cs)) :
    Kmid delta alpha statesL (splitAll X P W).1 (splitAll X P W).2 A cs := by
  intro p hp q hq hsame2 c hc
  have hsame : SameB P p q := sameB_of_refines (splitAll_refines P W) hsame2
  rcases hK p hp q hq hsame c hc with h1 | h2 | h3
  · by_cases hiff : (delta p c ∈ X ↔ delta q c ∈ X)
    · exact Or.inl (splitAll_sameB P W _ _ h1 hiff)
    · obtain ⟨Y, hY, hpY, hqY⟩ := h1
      by_cases hpX : delta p c ∈ X
      · have hqX : delta q c ∉ X := fun hc2 => hiff ⟨fun _ => hc2, fun _ => hpX⟩
        obtain ⟨B, hB, hsep⟩ := splitAll_sep_new P W Y hY _ hpY _ hqY hpX hqX
        exact Or.inr (Or.inl ⟨B, hB, hsep⟩)
      · have hqX : delta q c ∈ X := by
          by_contra hq2
          exact hiff ⟨fun h => absurd h hpX, fun h => absurd h hq2⟩
        obtain ⟨B, hB, hsep⟩ := splitAll_sep_new P W Y hY _ hqY _ hpY hqX hpX
        exact Or.inr (Or.inl ⟨B, hB, fun hiff2 => hsep (Iff.symm hiff2)⟩)
  · exact Or.inr (Or.inl (splitAll_sep_persist P W _ _ h2))
  · obtain ⟨hcrest, hsepA⟩ := h3
    rcases List.mem_cons.1 hcrest with heq | hcs
    · subst heq
      have hpqX : ¬(p ∈ X ↔ q ∈ X) := by
        intro hiff
        apply hsepA
        constructor
        · intro hpa
          exact ((hX q).1 (hiff.1 ((hX p).2 ⟨hp, hpa⟩))).2
        · intro hqa
          exact ((hX p).1 (hiff.2 ((hX q).2 ⟨hq, hqa⟩))).2
      obtain ⟨Y2, hY2, hp2, hq2⟩ := hsame2
      exact absurd (splitAll_homog P W Y2 hY2 p hp2 q hq2) hpqX
    · exact Or.inr (Or.inr ⟨hcs, hsepA⟩)

theorem refineSyms_pres {delta : Nat → Char → Nat} {F : List Nat} {alpha : List Char}
    {statesL : List Nat}
    (hdelta : ∀ s ∈ statesL, ∀ c ∈ alpha, delta s c ∈ statesL) :
    ∀ (cs : List Char), (∀ c ∈ cs, c ∈ alpha) → ∀ (A : List Nat) (P W : List (List Nat)),
      PartInv statesL P → AccInv F P → WInv P W → UBlk A P →
      Kmid delta alpha statesL P W A cs → SInv delta F alpha statesL P →
      PartInv statesL (refineSyms delta statesL A cs P W).1 ∧
      AccInv F (refineSyms delta statesL A cs P W).1 ∧
      WInv (refineSyms delta statesL A cs P W).1 (refineSyms delta statesL A cs P W).2 ∧
      KInv delta alpha statesL (refineSyms delta statesL A cs P W).1
        (refineSyms delta statesL A cs P W).2 ∧
      SInv delta F alpha statesL (refineSyms delta statesL A cs P W).1 := by
  intro cs
  induction cs with
  | nil =>
    intro _ A P W hpart hakk hw hub hk hs
    refine ⟨hpart, hakk, hw, ?_, hs⟩
    intro p hp q hq hsame c hc
    rcases hk p hp q hq hsame c hc with h1 | h2 | h3
    · exact Or.inl h1
    · exact Or.inr h2
    · cases h3.1
  | cons c0 cs ih =>
    intro hsub A P W hpart hakk hw hub hk hs
    have hc0 : c0 ∈ alpha := hsub c0 (List.mem_cons_self _ _)
    have hX : ∀ s, s ∈ statesL.filter (fun s => A.contains (delta s c0)) ↔
        s ∈ statesL ∧ delta s c0 ∈ A := by
      intro s
      rw [List.mem_filter, contains_iff]
    show PartInv statesL (refineSyms delta statesL A cs
        (splitAll (statesL.filter (fun s => A.contains (delta s c0))) P W).1
        (splitAll (statesL.filter (fun s => A.contains (delta s c0))) P W).2).1 ∧ _
    refine ih (fun c hc => hsub c (List.mem_cons_of_mem _ hc)) A _ _ ?_ ?_ ?_ ?_ ?_ ?_
    · exact PartInv_splitAll hpart
    · exact AccInv_splitAll hakk
    · exact WInv_splitAll hw hpart.2.1
    · exact UBlk_of_refines (splitAll_refines P W) hub
    · exact Kmid_splitAll hX hk
    · exact SInv_splitAll hX hub hdelta hc0 hs

theorem getLast?_cases {α : Type} {l : List α} {a : α} (h : l.getLast? = some a) :
    a ∈ l ∧ ∀ b ∈ l, b ∈ l.dropLast ∨ b = a := by
  induction l with
  | nil => cases h
  | cons x xs ih =>
    cases xs with
    | nil =>
      obtain rfl : x = a := by simpa using h
      exact ⟨List.mem_cons_self _ _, by
        intro b hb
        rcases List.mem_cons.1 hb with rfl | hb2
        · exact Or.inr rfl
        · cases hb2⟩
    | cons y ys =>
      have h2 : (y :: ys).getLast? = some a := by
        rw [← h]
        rfl
      obtain ⟨hmem, hsplit⟩ := ih h2
      refine ⟨List.mem_cons_of_mem _ hmem, ?_⟩
      intro b hb
      rcases List.mem_cons.1 hb with rfl | hb2
      · exact Or.inl (List.mem_cons_self _ _)
      · rcases hsplit b hb2 with h3 | h3
        · exact Or.inl (by
            show b ∈ (x :: y :: ys).dropLast
            rw [List.dropLast_cons₂]
            exact List.mem_cons_of_mem _ h3)
        · exact Or.inr h3

theorem mem_of_mem_dropLast2 {α : Type} {l : List α} {a : α} (h : a ∈ l.dropLast) : a ∈ l := by
  induction l with
  | nil => cases h
  | cons x xs ih =>
    cases xs with
    | nil => cases h
    | cons y ys =>
      rw [List.dropLast_cons₂] at h
      rcases List.mem_cons.1 h with rfl | h2
      · exact List.mem_cons_self _ _
      · exact List.mem_cons_of_mem _ (ih h2)

theorem getLast?_none_nil {α : Type} : ∀ (l : List α), l.getLast? = none → l = [] := by
  intro l
  induction l with
  | nil => intro _; rfl
  | cons x xs ih =>
    intro h
    cases xs with
    | nil => cases h
    | cons y ys =>
      rw [List.getLast?_cons_cons] at h
      cases ih h

theorem refineLoop_pres {delta : Nat → Char → Nat} {F : List Nat} {alpha : List Char}
    {statesL : List Nat}
    (hdelta : ∀ s ∈ statesL, ∀ c ∈ alpha, delta s c ∈ statesL) :
    ∀ (fuel : Nat) (P W : List (List Nat)) (Pf : List (List Nat)),
      refineLoop delta alpha statesL fuel P W = some Pf →
      PartInv statesL P → AccInv F P → WInv P W →
      KInv delta alpha statesL P W → SInv delta F alpha statesL P →
      PartInv statesL Pf ∧ AccInv F Pf ∧ Stab delta alpha statesL Pf ∧
        SInv delta F alpha statesL Pf := by
  intro fuel
  induction fuel with
  | zero =>
    intro P W Pf h hpart hakk hw hk hs
    by_cases hW : W.isEmpty
    · rw [refineLoop, if_pos hW] at h
      obtain rfl := Option.some_inj.1 h
      have hWnil : W = [] := List.isEmpty_iff.1 hW
      subst hWnil
      refine ⟨hpart, hakk, ?_, hs⟩
      intro p hp q hq hsame c hc
      rcases hk p hp q hq hsame c hc with h1 | h2
      · exact h1
      · obtain ⟨A2, hA2, _⟩ := h2
        cases hA2
    · rw [refineLoop, if_neg hW] at h
      cases h
  | succ fuel ih =>
    intro P W Pf h hpart hakk hw hk hs
    rw [refineLoop] at h
    cases hlast : W.getLast? with
    | none =>
      simp only [hlast] at h
      obtain rfl := Option.some_inj.1 h
      obtain rfl : W = [] := getLast?_none_nil W hlast
      refine ⟨hpart, hakk, ?_, hs⟩
      intro p hp q hq hsame c hc
      rcases hk p hp q hq hsame c hc with h1 | h2
      · exact h1
      · obtain ⟨A2, hA2, _⟩ := h2
        cases hA2
    | some A =>
      simp only [hlast] at h
      obtain ⟨hAmem, hsplitW⟩ := getLast?_cases hlast
      have hKmid : Kmid delta alpha statesL P W.dropLast A alpha := by
        intro p hp q hq hsame c hc
        rcases hk p hp q hq hsame c hc with h1 | h2
        · exact Or.inl h1
        · obtain ⟨A2, hA2, hsep⟩ := h2
          rcases hsplitW A2 hA2 with h3 | h3
          · exact Or.inr (Or.inl ⟨A2, h3, hsep⟩)
          · subst h3
            exact Or.inr (Or.inr ⟨hc, hsep⟩)
      obtain ⟨g1, g2, g3, g4, g5⟩ := refineSyms_pres hdelta alpha (fun c hc => hc) A P
        W.dropLast hpart hakk (fun B hB => hw B (mem_of_mem_dropLast2 hB)) (hw A hAmem)
        hKmid hs
      exact ih _ _ Pf h g1 g2 g3 g4 g5

theorem initP_mem (statesL accepts : List Nat) :
    ∀ Y, Y ∈ initP statesL accepts ↔
      ((Y = sortDedup accepts ∧ sortDedup accepts ≠ []) ∨
       (Y = statesL.filter (fun s => !(sortDedup accepts).contains s) ∧
        statesL.filter (fun s => !(sortDedup accepts).contains s) ≠ [])) := by
  intro Y
  show Y ∈ ((if (sortDedup accepts).isEmpty = true then [] else [sortDedup accepts]) ++
      (if (statesL.filter (fun s => !(sortDedup accepts).contains s)).isEmpty = true then []
       else [statesL.filter (fun s => !(sortDedup accepts).contains s)])) ↔ _
  by_cases hFe : (sortDedup accepts).isEmpty
  · have hFnil := List.isEmpty_iff.1 hFe
    rw [if_pos hFe]
    by_cases hNe : (statesL.filter (fun s => !(sortDedup accepts).contains s)).isEmpty
    · have hNnil := List.isEmpty_iff.1 hNe
      rw [if_pos hNe]
      constructor
      · intro h
        simp at h
      · rintro (⟨rfl, hne⟩ | ⟨rfl, hne⟩)
        · exact absurd hFnil hne
        · exact absurd hNnil hne
    · have hNnil : statesL.filter (fun s => !(sortDedup accepts).contains s) ≠ [] := by
        intro hc
        rw [hc] at hNe
        exact hNe rfl
      rw [if_neg hNe]
      constructor
      · intro h
        have h2 : Y = statesL.filter (fun s => !(sortDedup accepts).contains s) := by
          simpa using h
        exact Or.inr ⟨h2, hNnil⟩
      · rintro (⟨rfl, hne⟩ | ⟨rfl, hne⟩)
        · exact absurd hFnil hne
        · simp
  · have hFnil : sortDedup accepts ≠ [] := by
      intro hc
      rw [hc] at hFe
      exact hFe rfl
    rw [if_neg hFe]
    by_cases hNe : (statesL.filter (fun s => !(sortDedup accepts).contains s)).isEmpty
    · have hNnil := List.isEmpty_iff.1 hNe
      rw [if_pos hNe]
      constructor
      · intro h
        have h2 : Y = sortDedup accepts := by simpa using h
        exact Or.inl ⟨h2, hFnil⟩
      · rintro (⟨rfl, hne⟩ | ⟨rfl, hne⟩)
        · simp
        · exact absurd hNnil hne
    · have hNnil : statesL.filter (fun s => !(sortDedup accepts).contains s) ≠ [] := by
        intro hc
        rw [hc] at hNe
        exact hNe rfl
      rw [if_neg hNe]
      constructor
      · intro h
        have h2 : Y = sortDedup accepts ∨
            Y = statesL.filter (fun s => !(sortDedup accepts).contains s) := by
          simpa using h
        rcases h2 with rfl | rfl
        · exact Or.inl ⟨rfl, hFnil⟩
        · exact Or.inr ⟨rfl, hNnil⟩
      · rintro (⟨rfl, _⟩ | ⟨rfl, _⟩) <;> simp

theorem initP_invariants {delta : Nat → Char → Nat} {alpha : List Char}
    {statesL accepts : List Nat}
    (hF : ∀ s ∈ sortDedup accepts, s ∈ statesL)
    (hdelta : ∀ s ∈ statesL, ∀ c ∈ alpha, delta s c ∈ statesL) :
    PartInv statesL (initP statesL accepts) ∧
    AccInv (sortDedup accepts) (initP statesL accepts) ∧
    WInv (initP statesL accepts) (initP statesL accepts) ∧
    KInv delta alpha statesL (initP statesL accepts) (initP statesL accepts) ∧
    SInv delta (sortDedup accepts) alpha statesL (initP statesL accepts) := by
  have hmemnF : ∀ s, s ∈ statesL.filter (fun s => !(sortDedup accepts).contains s) ↔
      s ∈ statesL ∧ s ∉ sortDedup accepts := fun s => mem_filter_ncontains
  have hmemP := initP_mem statesL accepts
  have hblock : ∀ s, s ∈ statesL → ∃ Y ∈ initP statesL accepts, s ∈ Y ∧
      (Y = sortDedup accepts ∨ Y = statesL.filter (fun s => !(sortDedup accepts).contains s)) := by
    intro s hs
    by_cases hsF : s ∈ sortDedup accepts
    · refine ⟨sortDedup accepts, (hmemP _).2 (Or.inl ⟨rfl, ?_⟩), hsF, Or.inl rfl⟩
      intro hc
      rw [hc] at hsF
      cases hsF
    · refine ⟨statesL.filter (fun s => !(sortDedup accepts).contains s),
        (hmemP _).2 (Or.inr ⟨rfl, ?_⟩), (hmemnF s).2 ⟨hs, hsF⟩, Or.inr rfl⟩
      intro hc
      have := (hmemnF s).2 ⟨hs, hsF⟩
      rw [hc] at this
      cases this
  have hpart : PartInv statesL (initP statesL accepts) := by
    refine ⟨?_, ?_, ?_⟩
    · intro Y hY
      rcases (hmemP Y).1 hY with ⟨rfl, hne⟩ | ⟨rfl, hne⟩ <;> exact hne
    · show DisjB ((if (sortDedup accepts).isEmpty = true then [] else [sortDedup accepts]) ++
      (if (statesL.filter (fun s => !(sortDedup accepts).contains s)).isEmpty = true then []
       else [statesL.filter (fun s => !(sortDedup accepts).contains s)]))
      by_cases hFe : (sortDedup accepts).isEmpty
      · by_cases hNe : (statesL.filter (fun s => !(sortDedup accepts).contains s)).isEmpty
        · rw [if_pos hFe, if_pos hNe]
          exact List.Pairwise.nil
        · rw [if_pos hFe, if_neg hNe]
          exact List.pairwise_cons.2 ⟨fun Z hZ => absurd hZ (List.not_mem_nil Z),
            List.Pairwise.nil⟩
      · by_cases hNe : (statesL.filter (fun s => !(sortDedup accepts).contains s)).isEmpty
        · rw [if_neg hFe, if_pos hNe]
          exact List.pairwise_cons.2 ⟨fun Z hZ => absurd hZ (List.not_mem_nil Z),
            List.Pairwise.nil⟩
        · rw [if_neg hFe, if_neg hNe]
          refine List.pairwise_cons.2 ⟨?_, List.pairwise_cons.2
            ⟨fun Z hZ => absurd hZ (List.not_mem_nil Z), List.Pairwise.nil⟩⟩
          intro Z hZ s hsF
          rcases List.mem_cons.1 hZ with rfl | h2
          · intro hsZ
            exact ((hmemnF s).1 hsZ).2 hsF
          · cases h2
    · intro s
      constructor
      · rintro ⟨Y, hY, hs⟩
        rcases (hmemP Y).1 hY with ⟨rfl, _⟩ | ⟨rfl, _⟩
        · exact hF s hs
        · exact ((hmemnF s).1 hs).1
      · intro hs
        obtain ⟨Y, hY, hsY, _⟩ := hblock s hs
        exact ⟨Y, hY, hsY⟩
  have hacc : AccInv (sortDedup accepts) (initP statesL accepts) := by
    intro Y hY
    rcases (hmemP Y).1 hY with ⟨rfl, _⟩ | ⟨rfl, _⟩
    · exact Or.inl (fun s hs => hs)
    · exact Or.inr (fun s hs => ((hmemnF s).1 hs).2)
  refine ⟨hpart, hacc, ?_, ?_, ?_⟩
  · intro A hA
    exact UBlk_of_mem_disj hpart.2.1 hA
  · intro p hp q hq hsame c hc
    have hx := hdelta p hp c hc
    have hy := hdelta q hq c hc
    by_cases hxF : delta p c ∈ sortDedup accepts
    · by_cases hyF : delta q c ∈ sortDedup accepts
      · refine Or.inl ⟨sortDedup accepts, (hmemP _).2 (Or.inl ⟨rfl, ?_⟩), hxF, hyF⟩
        intro hcon
        rw [hcon] at hxF
        cases hxF
      · refine Or.inr ⟨sortDedup accepts, (hmemP _).2 (Or.inl ⟨rfl, ?_⟩), ?_⟩
        · intro hcon
          rw [hcon] at hxF
          cases hxF
        · exact fun hiff => hyF (hiff.1 hxF)
    · by_cases hyF : delta q c ∈ sortDedup accepts
      · refine Or.inr ⟨sortDedup accepts, (hmemP _).2 (Or.inl ⟨rfl, ?_⟩), ?_⟩
        · intro hcon
          rw [hcon] at hyF
          cases hyF
        · exact fun hiff => hxF (hiff.2 hyF)
      · refine Or.inl ⟨statesL.filter (fun s => !(sortDedup accepts).contains s),
          (hmemP _).2 (Or.inr ⟨rfl, ?_⟩), (hmemnF _).2 ⟨hx, hxF⟩, (hmemnF _).2 ⟨hy, hyF⟩⟩
        intro hcon
        have := (hmemnF (delta p c)).2 ⟨hx, hxF⟩
        rw [hcon] at this
        cases this
  · intro p hp q hq hnsame
    by_cases hpF : p ∈ sortDedup accepts
    · by_cases hqF : q ∈ sortDedup accepts
      · exfalso
        apply hnsame
        refine ⟨sortDedup accepts, (hmemP _).2 (Or.inl ⟨rfl, ?_⟩), hpF, hqF⟩
        intro hcon
        rw [hcon] at hpF
        cases hpF
      · exact ⟨[], fun c hc => absurd hc (List.not_mem_nil c),
          fun hiff => hqF (hiff.1 hpF)⟩
    · by_cases hqF : q ∈ sortDedup accepts
      · exact ⟨[], fun c hc => absurd hc (List.not_mem_nil c),
          fun hiff => hpF (hiff.2 hqF)⟩
      · exfalso
        apply hnsame
        refine ⟨statesL.filter (fun s => !(sortDedup accepts).contains s),
          (hmemP _).2 (Or.inr ⟨rfl, ?_⟩), (hmemnF _).2 ⟨hp, hpF⟩, (hmemnF _).2 ⟨hq, hqF⟩⟩
        intro hcon
        have := (hmemnF p).2 ⟨hp, hpF⟩
        rw [hcon] at this
        cases this

/-! ### From the stable partition to the minimized automaton -/

theorem blockIdxOpt_eq_of_sameB {P : List (List Nat)} (hd : DisjB P) {x y : Nat}
    (h : SameB P x y) : blockIdxOpt P x = blockIdxOpt P y := by
  induction P with
  | nil =>
    obtain ⟨Y, hY, _⟩ := h
    cases hY
  | cons Z rest ih =>
    obtain ⟨hdZ, hdrest⟩ := List.pairwise_cons.1 hd
    obtain ⟨Y, hY, hx, hy⟩ := h
    by_cases hxZ : x ∈ Z
    · have hyZ : y ∈ Z := by
        rcases List.mem_cons.1 hY with rfl | h2
        · exact hy
        · exact absurd hx (fun hc => hdZ Y h2 x hxZ hc)
      simp [blockIdxOpt, hxZ, hyZ]
    · have hyZ : y ∉ Z := by
        intro hyZ
        rcases List.mem_cons.1 hY with rfl | h2
        · exact hxZ hx
        · exact hdZ Y h2 y hyZ hy
      have hYrest : Y ∈ rest := by
        rcases List.mem_cons.1 hY with rfl | h2
        · exact absurd hx hxZ
        · exact h2
      simp only [blockIdxOpt, if_neg hxZ, if_neg hyZ]
      rw [ih hdrest ⟨Y, hYrest, hx, hy⟩]

theorem blockIdxOpt_of_get {P : List (List Nat)} (hd : DisjB P) :
    ∀ {i : Nat} {Y : List Nat} {s : Nat}, P.get? i = some Y → s ∈ Y →
      blockIdxOpt P s = some i := by
  induction P with
  | nil => intro i Y s h; cases i <;> cases h
  | cons Z rest ih =>
    obtain ⟨hdZ, hdrest⟩ := List.pairwise_cons.1 hd
    intro i Y s h hs
    cases i with
    | zero =>
      obtain rfl : Z = Y := by simpa using h
      simp [blockIdxOpt, hs]
    | succ i2 =>
      have h2 : rest.get? i2 = some Y := by simpa using h
      have hYrest : Y ∈ rest := List.get?_mem h2
      have hsZ : s ∉ Z := fun hc => hdZ Y hYrest s hc hs
      simp only [blockIdxOpt, if_neg hsZ]
      rw [ih hdrest h2 hs]
      rfl

theorem sameB_of_blockIdx {P : List (List Nat)} {x y : Nat} {i : Nat}
    (hx : blockIdxOpt P x = some i) (hy : blockIdxOpt P y = some i) : SameB P x y := by
  obtain ⟨Y, hgY, hxY⟩ := blockIdxOpt_get hx
  obtain ⟨Z, hgZ, hyZ⟩ := blockIdxOpt_get hy
  obtain rfl : Y = Z := by
    rw [hgY] at hgZ
    exact Option.some_inj.1 hgZ
  exact ⟨Y, List.get?_mem hgY, hxY, hyZ⟩

theorem walkD_congr {d1 d2 : Nat → Char → Nat} (h : ∀ s c, d1 s c = d2 s c) :
    ∀ (w : List Char) (s : Nat), walkD d1 s w = walkD d2 s w := by
  intro w
  induction w with
  | nil => intro s; rfl
  | cons c w ih =>
    intro s
    show walkD d1 (d1 s c) w = walkD d2 (d2 s c) w
    rw [h s c]
    exact ih (d2 s c)

theorem walkD_mem {delta : Nat → Char → Nat} {alpha : List Char} {statesL : List Nat}
    (hdelta : ∀ s ∈ statesL, ∀ c ∈ alpha, delta s c ∈ statesL) :
    ∀ (w : List Char), (∀ c ∈ w, c ∈ alpha) → ∀ s ∈ statesL, walkD delta s w ∈ statesL := by
  intro w
  induction w with
  | nil => intro _ s hs; exact hs
  | cons c w ih =>
    intro hw s hs
    exact ih (fun c2 hc2 => hw c2 (List.mem_cons_of_mem _ hc2)) (delta s c)
      (hdelta s hs c (hw c (List.mem_cons_self _ _)))

theorem minDelta_sim {delta : Nat → Char → Nat} {alpha : List Char} {statesL : List Nat}
    {P : List (List Nat)} {mtr : DTrans}
    (hpart : PartInv statesL P) (hstab : Stab delta alpha statesL P)
    (hbuild : buildRows delta alpha P 0 P = some mtr) :
    ∀ s ∈ statesL, ∀ c ∈ alpha, ∀ i, blockIdxOpt P s = some i →
      ∃ j, blockIdxOpt P (delta s c) = some j ∧ deltaOf mtr i c = j := by
  intro s hs c hc i hi
  obtain ⟨hkeys, hmem, hall⟩ := buildRows_inv P 0 mtr hbuild
  obtain ⟨Y, hgY, hsY⟩ := blockIdxOpt_get hi
  obtain ⟨rep, row, hrep, hminrow, hrowmem⟩ := hall i Y hgY
  have hrepY : rep ∈ Y := head?_mem hrep
  have hYP : Y ∈ P := List.get?_mem hgY
  have hrepL : rep ∈ statesL := (hpart.2.2 rep).1 ⟨Y, hYP, hrepY⟩
  obtain ⟨m1, _, _, _⟩ := minRow_inv alpha [] row hminrow
  obtain ⟨k, hk, hlook⟩ := m1 c hc
  have hsame : SameB P (delta s c) (delta rep c) :=
    hstab s hs rep hrepL ⟨Y, hYP, hsY, hrepY⟩ c hc
  have hsidx : blockIdxOpt P (delta s c) = some k := by
    rw [blockIdxOpt_eq_of_sameB hpart.2.1 hsame, hk]
  refine ⟨k, hsidx, ?_⟩
  have hknodup : (akeys mtr).Nodup := by
    rw [hkeys]
    exact List.nodup_range' 0 P.length
  have hrowmem2 : (i, row) ∈ mtr := by simpa using hrowmem
  unfold deltaOf alookup2
  rw [alookup_of_mem_nodup hrowmem2 hknodup]
  show (alookup c row).getD i = k
  rw [hlook]
  rfl

theorem walk_sim {delta : Nat → Char → Nat} {alpha : List Char} {statesL : List Nat}
    {P : List (List Nat)} {mtr : DTrans}
    (hpart : PartInv statesL P) (hstab : Stab delta alpha statesL P)
    (hdelta : ∀ s ∈ statesL, ∀ c ∈ alpha, delta s c ∈ statesL)
    (hbuild : buildRows delta alpha P 0 P = some mtr) :
    ∀ (w : List Char), (∀ c ∈ w, c ∈ alpha) → ∀ s ∈ statesL, ∀ i, blockIdxOpt P s = some i →
      ∃ j, blockIdxOpt P (walkD delta s w) = some j ∧ walkD (deltaOf mtr) i w = j := by
  intro w
  induction w with
  | nil => intro _ s hs i hi; exact ⟨i, hi, rfl⟩
  | cons c w ih =>
    intro hw s hs i hi
    have hc : c ∈ alpha := hw c (List.mem_cons_self _ _)
    obtain ⟨k, hk, hdk⟩ := minDelta_sim hpart hstab hbuild s hs c hc i hi
    obtain ⟨j, hj, hwj⟩ := ih (fun c2 hc2 => hw c2 (List.mem_cons_of_mem _ hc2))
      (delta s c) (hdelta s hs c hc) k hk
    refine ⟨j, hj, ?_⟩
    show walkD (deltaOf mtr) (deltaOf mtr i c) w = j
    rw [hdk]
    exact hwj

theorem macc_iff {P : List (List Nat)} {statesL accepts maccRaw : List Nat}
    (hacc : AccInv (sortDedup accepts) P)
    (hmapm : (sortDedup accepts).mapM (fun s => blockIdxOpt P s) = some maccRaw) :
    ∀ t ∈ statesL, ∀ i, blockIdxOpt P t = some i →
      (t ∈ sortDedup accepts ↔ i ∈ sortDedup maccRaw) := by
  intro t ht i hi
  constructor
  · intro htF
    obtain ⟨b, hb, hbmem⟩ := mapM_some_forward hmapm t htF
    rw [hi] at hb
    obtain rfl := Option.some_inj.1 hb
    exact (mem_sortDedup _ _).2 hbmem
  · intro hiM
    obtain ⟨s, hsF, hsi⟩ := mapM_some_backward hmapm i ((mem_sortDedup _ _).1 hiM)
    have hsame : SameB P s t := sameB_of_blockIdx hsi hi
    obtain ⟨Y, hYP, hsY, htY⟩ := hsame
    rcases hacc Y hYP with h1 | h1
    · exact h1 t htY
    · exact absurd hsF (h1 s hsY)

theorem minimize_core {t : DTrans} {start : Nat} {accepts : List Nat} {alpha : List Char}
    {fuel : Nat} {mtr : DTrans} {mstart : Nat} {macc : List Nat}
    (h : minimize_dfa t start accepts alpha fuel = some (mtr, mstart, macc))
    (haccs : ∀ s ∈ accepts, s ∈ akeys t) :
    ∃ statesL P,
      (∀ s ∈ akeys t, s ∈ statesL) ∧
      PartInv statesL P ∧
      (∀ s ∈ statesL, ∀ c ∈ alpha, deltaOf t s c ∈ statesL) ∧
      blockIdxOpt P start = some mstart ∧
      SInv (deltaOf t) (sortDedup accepts) alpha statesL P ∧
      (∀ (w : List Char), (∀ c ∈ w, c ∈ alpha) → ∀ s ∈ statesL, ∀ i,
        blockIdxOpt P s = some i →
        ∃ j, blockIdxOpt P (walkD (deltaOf t) s w) = some j ∧ walkD (deltaOf mtr) i w = j) ∧
      (∀ u ∈ statesL, ∀ i, blockIdxOpt P u = some i → (u ∈ sortDedup accepts ↔ i ∈ macc)) ∧
      akeys mtr = List.range' 0 P.length := by
  obtain ⟨statesL, P, maccRaw, hc, hr, hb, hs, hm, hmacc⟩ := minimize_dfa_inv h
  obtain ⟨hnd, hkeysub, _, _, _⟩ := collectStates_inv hc
  have hF : ∀ s ∈ sortDedup accepts, s ∈ statesL := by
    intro s hsF
    exact hkeysub s (haccs s ((mem_sortDedup _ _).1 hsF))
  have hdeltaC : ∀ s ∈ statesL, ∀ c ∈ alpha,
      deltaOf (completeTransitions t statesL alpha) s c ∈ statesL := delta_closure hc
  obtain ⟨hp0, ha0, hw0, hk0, hs0⟩ := initP_invariants hF hdeltaC
  obtain ⟨hpart, hacc, hstab, hsinv⟩ :=
    refineLoop_pres hdeltaC fuel (initP statesL accepts) (initP statesL accepts) P hr
      hp0 ha0 hw0 hk0 hs0
  have hfun : deltaOf (completeTransitions t statesL alpha) = deltaOf t :=
    funext (fun s => funext (fun c => deltaOf_complete_eq hnd s c))
  rw [hfun] at hdeltaC hstab hsinv hb
  refine ⟨statesL, P, hkeysub, hpart, hdeltaC, hs, hsinv, ?_, ?_, ?_⟩
  · exact walk_sim hpart hstab hdeltaC hb
  · intro u hu i hi
    rw [hmacc]
    exact macc_iff hacc hm u hu i hi
  · exact (buildRows_inv P 0 mtr hb).1

/-- Claim C2: in the minimized DFA returned by `minimize_dfa` (called, as the
pipeline does, with accept states drawn from the table's keys), no two
distinct states are equivalent: for every pair of distinct states of the
minimized table there is a word over the alphabet whose walk from the two
states is accepted from exactly one of them. -/
theorem claim_C2 {t : DTrans} {start : Nat} {accepts : List Nat} {alpha : List Char}
    {fuel : Nat} {mtr : DTrans} {mstart : Nat} {macc : List Nat}
    (h : minimize_dfa t start accepts alpha fuel = some (mtr, mstart, macc))
    (haccs : ∀ s ∈ accepts, s ∈ akeys t) :
    ∀ i ∈ akeys mtr, ∀ j ∈ akeys mtr, i ≠ j →
      ∃ w : List Char, (∀ c ∈ w, c ∈ alpha) ∧
        ¬(dfaWalk mtr i w ∈ macc ↔ dfaWalk mtr j w ∈ macc) := by
  obtain ⟨statesL, P, hkeysub, hpart, hdelta, hstart, hsinv, hsim, haccif, hkeysm⟩ :=
    minimize_core h haccs
  intro i hi j hj hij
  rw [hkeysm] at hi hj
  have hilt : i < P.length := by
    have := List.mem_range'_1.1 hi
    omega
  have hjlt : j < P.length := by
    have := List.mem_range'_1.1 hj
    omega
  have hgi : P.get? i = some (P.get ⟨i, hilt⟩) := List.get?_eq_get hilt
  have hgj : P.get? j = some (P.get ⟨j, hjlt⟩) := List.get?_eq_get hjlt
  obtain ⟨p, hp⟩ := List.exists_mem_of_ne_nil _ (hpart.1 _ (List.get?_mem hgi))
  obtain ⟨q, hq⟩ := List.exists_mem_of_ne_nil _ (hpart.1 _ (List.get?_mem hgj))
  have hpL : p ∈ statesL := (hpart.2.2 p).1 ⟨_, List.get?_mem hgi, hp⟩
  have hqL : q ∈ statesL := (hpart.2.2 q).1 ⟨_, List.get?_mem hgj, hq⟩
  have hpi : blockIdxOpt P p = some i := blockIdxOpt_of_get hpart.2.1 hgi hp
  have hqj : blockIdxOpt P q = some j := blockIdxOpt_of_get hpart.2.1 hgj hq
  have hnsame : ¬SameB P p q := by
    intro hsame
    have := blockIdxOpt_eq_of_sameB hpart.2.1 hsame
    rw [hpi, hqj] at this
    exact hij (Option.some_inj.1 this)
  obtain ⟨w, hw, hne⟩ := hsinv p hpL q hqL hnsame
  refine ⟨w, hw, ?_⟩
  obtain ⟨a, ha, hwa⟩ := hsim w hw p hpL i hpi
  obtain ⟨b, hb, hwb⟩ := hsim w hw q hqL j hqj
  have hpw : walkD (deltaOf t) p w ∈ statesL := walkD_mem hdelta w hw p hpL
  have hqw : walkD (deltaOf t) q w ∈ statesL := walkD_mem hdelta w hw q hqL
  have hiffa : walkD (deltaOf t) p w ∈ sortDedup accepts ↔ a ∈ macc :=
    haccif _ hpw a ha
  have hiffb : walkD (deltaOf t) q w ∈ sortDedup accepts ↔ b ∈ macc :=
    haccif _ hqw b hb
  show ¬(walkD (deltaOf mtr) i w ∈ macc ↔ walkD (deltaOf mtr) j w ∈ macc)
  rw [hwa, hwb]
  intro hiff
  exact hne (Iff.trans (Iff.trans hiffa (Iff.trans hiff hiffb.symm)) Iff.rfl)

/-- Claim C1: whenever the whole pipeline succeeds, the minimized DFA it
returns accepts exactly the words (over the alphabet) that the
pre-minimization determinized DFA accepts: walking the dead-completed subset
construction table from its start state lands in `get_accept_states` exactly
when walking the returned minimized table from the returned start state lands
in the returned accept list. -/
theorem claim_C1 {regex alpha : List Char} {fuel c0 : Nat} {res : DFAResult}
    {tree : RNode} {ns na : Nat} {ntr : NTrans}
    {dtr : DTrans} {st0 : Nat} {dstates : List (List Nat × Nat)} {dead : Option Nat}
    (hres : (regex_to_dfa regex alpha fuel c0).1 = some res)
    (hp : parseRegex regex = .ok tree)
    (hb : (build_nfa tree 0).1 = (ns, na, ntr))
    (hnd : nfa_to_dfa ns na ntr alpha fuel = some (dtr, st0, dstates, dead)) :
    ∀ w : List Char, (∀ c ∈ w, c ∈ alpha) →
      (dfaWalk (deadCompleted dtr dead alpha) st0 w ∈ get_accept_states dstates na ↔
        dfaWalk res.transitions res.start_state w ∈ res.accept_states) := by
  obtain ⟨tree2, ns2, na2, ntr2, dtr2, st02, dstates2, dead2, mtr, mstart, macc,
    hp2, hb2, hnd2, hmin, hrs, hra, hrt, _, _⟩ := regex_to_dfa_inv hres
  obtain rfl : tree = tree2 := by
    rw [hp] at hp2
    exact Except.ok.inj hp2
  obtain ⟨rfl, rfl, rfl⟩ : ns = ns2 ∧ na = na2 ∧ ntr = ntr2 := by
    rw [hb] at hb2
    exact ⟨congrArg (fun q => q.1) hb2, congrArg (fun q => q.2.1) hb2,
      congrArg (fun q => q.2.2) hb2⟩
  obtain ⟨rfl, rfl, rfl, rfl⟩ :
      dtr = dtr2 ∧ st0 = st02 ∧ dstates = dstates2 ∧ dead = dead2 := by
    rw [hnd] at hnd2
    have h2 := Option.some_inj.1 hnd2
    exact ⟨congrArg (fun q => q.1) h2, congrArg (fun q => q.2.1) h2,
      congrArg (fun q => q.2.2.1) h2, congrArg (fun q => q.2.2.2) h2⟩
  obtain ⟨hst00, hst0key, hdskeys⟩ := nfa_to_dfa_facts hnd
  have haccs : ∀ s ∈ get_accept_states dstates na, s ∈ akeys (deadCompleted dtr dead alpha) := by
    intro s hs
    obtain ⟨kv, hkv, rfl⟩ := get_accept_states_sub s hs
    exact akeys_deadCompleted_mono (hdskeys kv hkv)
  obtain ⟨statesL, P, hkeysub, hpart, hdelta, hstart, _, hsim, haccif, _⟩ :=
    minimize_core hmin haccs
  intro w hw
  have hst0L : st0 ∈ statesL := by
    subst hst00
    exact hkeysub 0 (akeys_deadCompleted_mono hst0key)
  obtain ⟨a, ha, hwa⟩ := hsim w hw st0 hst0L mstart hstart
  have hwL : walkD (deltaOf (deadCompleted dtr dead alpha)) st0 w ∈ statesL :=
    walkD_mem hdelta w hw st0 hst0L
  have hiffa : walkD (deltaOf (deadCompleted dtr dead alpha)) st0 w
      ∈ sortDedup (get_accept_states dstates na) ↔ a ∈ macc := haccif _ hwL a ha
  rw [hrs, hra, hrt]
  show walkD (deltaOf (deadCompleted dtr dead alpha)) st0 w ∈ get_accept_states dstates na ↔
    walkD (deltaOf mtr) mstart w ∈ macc
  rw [hwa, ← mem_sortDedup _ (get_accept_states dstates na)]
  exact hiffa

theorem claim_C1_witness :
    dfaWalk (deadCompleted [(0, [('a', 1), ('b', 2)]), (2, []), (1, [('a', 2), ('b', 2)])]
        (some 2) ['a', 'b']) 0 ['a']
      ∈ get_accept_states [([0], 0), ([1], 1)] 1 ↔
    dfaWalk (DFAResult.mk 2 [0] [1]
        [(0, [('a', 1), ('b', 1)]), (1, [('a', 1), ('b', 1)]), (2, [('a', 0), ('b', 1)])]
        ['a']).transitions
      (DFAResult.mk 2 [0] [1]
        [(0, [('a', 1), ('b', 1)]), (1, [('a', 1), ('b', 1)]), (2, [('a', 0), ('b', 1)])]
        ['a']).start_state ['a']
      ∈ (DFAResult.mk 2 [0] [1]
        [(0, [('a', 1), ('b', 1)]), (1, [('a', 1), ('b', 1)]), (2, [('a', 0), ('b', 1)])]
        ['a']).accept_states :=
  @claim_C1 ['a'] ['a', 'b'] 100 0
    (DFAResult.mk 2 [0] [1]
      [(0, [('a', 1), ('b', 1)]), (1, [('a', 1), ('b', 1)]), (2, [('a', 0), ('b', 1)])]
      ['a'])
    (RNode.lit 'a') 0 1 [(0, [(some 'a', [1])]), (1, [])]
    [(0, [('a', 1), ('b', 2)]), (2, []), (1, [('a', 2), ('b', 2)])] 0
    [([0], 0), ([1], 1)] (some 2)
    (by rfl) (by rfl) (by rfl) (by rfl) ['a'] (by decide)

theorem claim_C2_witness :
    ∃ w : List Char, (∀ c ∈ w, c ∈ ['a', 'b']) ∧
      ¬(dfaWalk [(0, [('a', 1), ('b', 1)]), (1, [('a', 1), ('b', 1)]),
          (2, [('a', 0), ('b', 1)])] 0 w ∈ [0] ↔
        dfaWalk [(0, [('a', 1), ('b', 1)]), (1, [('a', 1), ('b', 1)]),
          (2, [('a', 0), ('b', 1)])] 1 w ∈ [0]) :=
  @claim_C2 [(0, [('a', 1), ('b', 2)]), (2, [('a', 2), ('b', 2)]), (1, [('a', 2), ('b', 2)])]
    0 [1] ['a', 'b'] 100
    [(0, [('a', 1), ('b', 1)]), (1, [('a', 1), ('b', 1)]), (2, [('a', 0), ('b', 1)])] 2 [0]
    (by rfl) (by decide) 0 (by decide) 1 (by decide) (by decide)
